import Mathlib

/- Shallow embedding of src/src/detail/uri_parse.cpp (network::parse_uri and its
   local helpers).  The input is a list of characters, the cursor is a natural
   number index, and every component slice is a (start, stop) index pair into
   the input.  A dereference at or past the end boundary — undefined behaviour
   of the C++ string_view iterators — is modelled by the distinguished outcome
   PResult.oob, and the scan loop carries explicit fuel so that its boundedness
   can be stated as a theorem. -/

def nth : List Char → Nat → Option Char
  | [], _ => none
  | c :: _, 0 => some c
  | _ :: tl, n + 1 => nth tl n

def cs (t : String) : List Char := t.data

/-- Modelled from the spec (grammar.hpp with the detail character classes is not
under src/): ASCII-only alphabetic test, as required by §4.1 for the
locale-independent classification used on the scheme. -/
def isAlphaC (c : Char) : Bool :=
  (decide ('a' ≤ c) && decide (c ≤ 'z')) || (decide ('A' ≤ c) && decide (c ≤ 'Z'))

/-- Modelled from the spec: ASCII-only digit test (§4.1 is_digit). -/
def isDigitC (c : Char) : Bool := decide ('0' ≤ c) && decide (c ≤ '9')

/-- Modelled from the spec: ASCII-only alphanumeric test (§4.1 is_alnum). -/
def isAlnumC (c : Char) : Bool := isAlphaC c || isDigitC c

/-- Modelled from the spec: hexadecimal digit, used by the pct-encoded triplet. -/
def isHexC (c : Char) : Bool :=
  isDigitC c || (decide ('a' ≤ c) && decide (c ≤ 'f')) || (decide ('A' ≤ c) && decide (c ≤ 'F'))

/-- Modelled from the spec: `unreserved = ALPHA / DIGIT / - . _ ~` (§4.1). -/
def isUnreservedC (c : Char) : Bool :=
  isAlnumC c || c == '-' || c == '.' || c == '_' || c == '~'

/-- Modelled from the spec: `sub-delims = ! $ & ' ( ) * + , ; =` (§4.1). -/
def isSubDelimC (c : Char) : Bool :=
  c == '!' || c == '$' || c == '&' || c == Char.ofNat 39 || c == '(' || c == ')' ||
  c == '*' || c == '+' || c == ',' || c == ';' || c == '='

/-- Modelled from the spec: is_pct_encoded at position i with end boundary e:
a '%' followed by two hexadecimal digits, all inside the boundary; on match the
caller advances three positions, otherwise nothing is consumed (§4.1). -/
def pct_in (s : List Char) (e i : Nat) : Bool :=
  decide (i + 2 < e) &&
    (match nth s i, nth s (i + 1), nth s (i + 2) with
     | some c0, some c1, some c2 => c0 == '%' && isHexC c1 && isHexC c2
     | _, _, _ => false)

/-- Modelled from the spec: is_pchar with the whole input as boundary; returns
the advanced position on a match (one character, or three for a pct-encoded
triplet), none otherwise (§4.1). -/
def pchar_adv (s : List Char) (i : Nat) : Option Nat :=
  match nth s i with
  | none => none
  | some c =>
    if isUnreservedC c then some (i + 1)
    else if pct_in s s.length i then some (i + 3)
    else if isSubDelimC c || c == ':' || c == '@' then some (i + 1)
    else none

/-- Single-character pchar classes apart from pct-encoded: unreserved,
sub-delims, ':' and '@' (§4.1 is_pchar). -/
def isPcharSingle (c : Char) : Bool :=
  isUnreservedC c || isSubDelimC c || c == ':' || c == '@'

/-- Modelled from the spec: is_valid_port over the characters of the port
component: every character is an ASCII digit; an empty port is valid (§4.1). -/
def is_valid_port : List Char → Bool
  | [] => true
  | c :: r => isDigitC c && is_valid_port r

/-- Embedding of the anonymous-namespace scheme loop of validate_scheme
(uri_parse.cpp lines 57-64) over the remaining input, carrying the absolute
cursor position: stops at a ':' or at the end of input (both are reported as
success, mirroring the C++), fails on any other character that is not
alphanumeric or one of + - . -/
def schemeLoop : List Char → Nat → Option Nat
  | [], i => some i
  | c :: r, i =>
    if c = ':' then some i
    else if isAlnumC c || c == '+' || c == '-' || c == '.' then schemeLoop r (i + 1)
    else none

/-- Embedding of validate_scheme (uri_parse.cpp lines 45-67): first character
must be a letter; returns the cursor position where the loop stopped. -/
def validate_scheme (s : List Char) : Option Nat :=
  match s with
  | [] => none
  | c :: r => if isAlphaC c then schemeLoop r 1 else none

/-- Embedding of is_valid_user_info (uri_parse.cpp lines 69-80) over the
characters of the user-info span: every step is unreserved, pct-encoded,
sub-delims, or ':'.  A '%' is in none of the single-character classes, so the
pct-encoded triplet can be matched first without changing the semantics; a '%'
not followed by two hexadecimal digits inside the span fails, as in the C++. -/
def is_valid_user_info : List Char → Bool
  | [] => true
  | '%' :: c1 :: c2 :: r =>
    if isHexC c1 && isHexC c2 then is_valid_user_info r else false
  | c :: r =>
    if isUnreservedC c || isSubDelimC c || c == ':' then is_valid_user_info r
    else false

/-- Embedding of validate_query (uri_parse.cpp lines 101-109) over the
remaining input with the absolute cursor position: consumes pchar and `? /`
characters; on a '#' it reports success with the cursor on the '#'; reaching
the end also reports success with the cursor at the end.  As in
is_valid_user_info, the pct-encoded triplet is matched by the leading '%'. -/
def validate_query : List Char → Nat → Option Nat
  | [], i => some i
  | '%' :: c1 :: c2 :: r, i =>
    if isHexC c1 && isHexC c2 then validate_query r (i + 3) else none
  | c :: r, i =>
    if isPcharSingle c || c == '?' || c == '/' then validate_query r (i + 1)
    else if c == '#' then some i else none

/-- Embedding of validate_fragment (uri_parse.cpp lines 111-119) over the
remaining input: consumes pchar and `? /` characters; any other character
fails; reaching the end succeeds. -/
def validate_fragment : List Char → Bool
  | [] => true
  | '%' :: c1 :: c2 :: r =>
    if isHexC c1 && isHexC c2 then validate_fragment r else false
  | c :: r =>
    if isPcharSingle c || c == '?' || c == '/' then validate_fragment r else false

/-- Slice of the input selected by a (start, stop) index pair. -/
def sl (s : List Char) (ab : Nat × Nat) : List Char :=
  (s.drop ab.1).take (ab.2 - ab.1)

/-- Output record of the parser: seven optional (start, stop) slices of the
input, mirroring network::uri_parts. -/
structure uri_parts where
  scheme : Option (Nat × Nat) := none
  user_info : Option (Nat × Nat) := none
  host : Option (Nat × Nat) := none
  port : Option (Nat × Nat) := none
  path : Option (Nat × Nat) := none
  query : Option (Nat × Nat) := none
  fragment : Option (Nat × Nat) := none
deriving DecidableEq, Repr

/-- Outcome of a parse in the embedding.  `oob` marks a character read at or
past the end boundary (undefined behaviour of the C++); `outOfFuel` marks fuel
exhaustion of the embedded loop (proved unreachable). -/
inductive PResult where
  | ok (parts : uri_parts)
  | fail
  | oob
  | outOfFuel
deriving DecidableEq, Repr

/-- Embedding of set_host_and_port (uri_parse.cpp lines 82-99): split the span
[first, last) at the recorded colon; with no colon the whole span is the host,
otherwise the part after the colon must be a valid (all-digit) port. -/
def set_host_and_port (s : List Char) (first last last_colon : Nat)
    (parts : uri_parts) : Option uri_parts :=
  if first = last_colon then some { parts with host := some (first, last) }
  else
    if is_valid_port (sl s (last_colon + 1, last)) then
      some { parts with host := some (first, last_colon),
                        port := some (last_colon + 1, last) }
    else none

/-- Sub-states of the hierarchical part (uri_parse.cpp lines 28-36). -/
inductive HierState where
  | firstSlash
  | secondSlash
  | authority
  | host
  | hostIpv6
  | port
  | path
deriving DecidableEq, Repr

/-- Embedding of the fragment tail of parse_uri (lines 386-390 and 426-428):
validate the rest as a fragment and record it up to the end of input. -/
def fragmentPhase (s : List Char) (it : Nat) (parts : uri_parts) : PResult :=
  if validate_fragment (s.drop it) then .ok { parts with fragment := some (it, s.length) }
  else .fail

/-- Embedding of the query tail of parse_uri (lines 372-384 and 423-425).  The
C++ dereferences `*it` at line 377 even when validate_query stopped at the end
of input, which is a read at the end boundary: that case is .oob here. -/
def queryPhase (s : List Char) (it : Nat) (parts : uri_parts) : PResult :=
  match validate_query (s.drop it) it with
  | none => .fail
  | some j =>
    match nth s j with
    | none => .oob
    | some c =>
      if c = '#' then fragmentPhase s (j + 1) { parts with query := some (it, j) }
      else .ok { parts with query := some (it, s.length) }

/-- Embedding of the end-of-loop resolution of parse_uri (lines 392-422), for
the case in which the top-level state is still the hierarchical part.  The C++
has no branch for first_slash/second_slash, so those states return the parts
unchanged — in particular with no path slice. -/
def finalizeHier (s : List Char) (first last_colon : Nat) (hp : HierState)
    (parts : uri_parts) : PResult :=
  match hp with
  | .firstSlash => .ok parts
  | .secondSlash => .ok parts
  | .authority =>
    match set_host_and_port s first s.length last_colon parts with
    | none => .fail
    | some parts2 => .ok { parts2 with path := some (s.length, s.length) }
  | .host =>
    match set_host_and_port s first s.length last_colon parts with
    | none => .fail
    | some parts2 => .ok { parts2 with path := some (s.length, s.length) }
  | .hostIpv6 =>
    match set_host_and_port s first s.length last_colon parts with
    | none => .fail
    | some parts2 => .ok { parts2 with path := some (s.length, s.length) }
  | .port =>
    if is_valid_port (sl s (first, s.length)) then
      .ok { parts with port := some (first, s.length), path := some (s.length, s.length) }
    else .fail
  | .path => .ok { parts with path := some (first, s.length) }

/-- Embedding of the main scan loop of parse_uri (lines 146-370), one fuel unit
per loop iteration.  Every `*it` or `*first` dereference is modelled by `nth`;
a read past the boundary yields .oob.  The port state mirrors the C++ exactly,
including the double advancement at lines 339/369 (detail::isdigit advances the
iterator and line 369 advances it again). -/
def hierLoop (s : List Char) (fuel it first last_colon : Nat) (hp : HierState)
    (parts : uri_parts) : PResult :=
  match fuel with
  | 0 => .outOfFuel
  | fuel + 1 =>
    if it = s.length then finalizeHier s first last_colon hp parts
    else
      match hp with
      | .firstSlash =>
        match nth s it with
        | none => .oob
        | some c =>
          if c = '/' then hierLoop s fuel (it + 1) it last_colon .secondSlash parts
          else hierLoop s fuel (it + 1) it last_colon .path parts
      | .secondSlash =>
        match nth s it with
        | none => .oob
        | some c =>
          if c = '/' then hierLoop s fuel (it + 1) (it + 1) last_colon .authority parts
          else hierLoop s fuel (it + 1) first last_colon .path parts
      | .authority =>
        match nth s first with
        | none => .oob
        | some cf =>
          if cf = '@' || cf = ':' then .fail
          else
            let lc := if first = it then first else last_colon
            match nth s it with
            | none => .oob
            | some c =>
              if c = '@' then
                if is_valid_user_info (sl s (first, it)) then
                  match nth s (it + 1) with
                  | none => .oob
                  | some c2 =>
                    if c2 = '[' then
                      hierLoop s fuel (it + 1) (it + 1) lc .hostIpv6
                        { parts with user_info := some (first, it) }
                    else
                      hierLoop s fuel (it + 1) (it + 1) lc .host
                        { parts with user_info := some (first, it) }
                else .fail
              else if c = '[' then hierLoop s fuel it it lc .hostIpv6 parts
              else if c = ':' then hierLoop s fuel (it + 1) first it .authority parts
              else if c = '/' then
                match set_host_and_port s first it lc parts with
                | none => .fail
                | some parts2 => hierLoop s fuel it it lc .path parts2
              else if c = '?' then
                match set_host_and_port s first it lc parts with
                | none => .fail
                | some parts2 => queryPhase s (it + 1) { parts2 with path := some (it, it) }
              else if c = '#' then
                match set_host_and_port s first it lc parts with
                | none => .fail
                | some parts2 => fragmentPhase s (it + 1) { parts2 with path := some (it, it) }
              else hierLoop s fuel (it + 1) first lc .authority parts
      | .host =>
        match nth s first with
        | none => .oob
        | some cf =>
          if cf = ':' then .fail
          else
            match nth s it with
            | none => .oob
            | some c =>
              if c = ':' then
                hierLoop s fuel (it + 1) (it + 1) last_colon .port
                  { parts with host := some (first, it) }
              else if c = '/' then
                hierLoop s fuel it it last_colon .path { parts with host := some (first, it) }
              else if c = '?' then
                queryPhase s (it + 1) { parts with host := some (first, it), path := some (it, it) }
              else if c = '#' then
                fragmentPhase s (it + 1) { parts with host := some (first, it), path := some (it, it) }
              else hierLoop s fuel (it + 1) first last_colon .host parts
      | .hostIpv6 =>
        match nth s first with
        | none => .oob
        | some cf =>
          if cf ≠ '[' then .fail
          else
            match nth s it with
            | none => .oob
            | some c =>
              if c = ']' then
                if it + 1 = s.length then finalizeHier s first last_colon .hostIpv6 parts
                else
                  match nth s (it + 1) with
                  | none => .oob
                  | some c2 =>
                    if c2 = ':' then
                      hierLoop s fuel (it + 2) (it + 2) last_colon .port
                        { parts with host := some (first, it + 1) }
                    else if c2 = '/' then
                      hierLoop s fuel (it + 1) (it + 1) last_colon .path
                        { parts with host := some (first, it + 1) }
                    else if c2 = '?' then
                      queryPhase s (it + 2)
                        { parts with host := some (first, it + 1), path := some (it + 1, it + 1) }
                    else if c2 = '#' then
                      fragmentPhase s (it + 2)
                        { parts with host := some (first, it + 1), path := some (it + 1, it + 1) }
                    else hierLoop s fuel (it + 1) first last_colon .hostIpv6 parts
              else hierLoop s fuel (it + 1) first last_colon .hostIpv6 parts
      | .port =>
        match nth s first with
        | none => .oob
        | some cf =>
          if cf = '/' then
            if is_valid_port (sl s (first, it)) then
              hierLoop s fuel it first last_colon .path { parts with port := some (first, it) }
            else .fail
          else
            match nth s it with
            | none => .oob
            | some c =>
              if c = '/' then
                if is_valid_port (sl s (first, it)) then
                  hierLoop s fuel it it last_colon .path { parts with port := some (first, it) }
                else .fail
              else if isDigitC c then hierLoop s fuel (it + 2) first last_colon .port parts
              else .fail
      | .path =>
        match nth s it with
        | none => .oob
        | some c =>
          if c = '?' then queryPhase s (it + 1) { parts with path := some (first, it) }
          else if c = '#' then fragmentPhase s (it + 1) { parts with path := some (first, it) }
          else
            match pchar_adv s it with
            | some j => hierLoop s fuel j first last_colon .path parts
            | none =>
              if c = '/' then hierLoop s fuel (it + 1) first last_colon .path parts
              else .fail

/-- Embedding of parse_uri (uri_parse.cpp lines 122-431) on a whole input: the
empty-input check, validate_scheme with the scheme slice and the step past the
delimiter, then the hierarchical loop with the last-colon marker initialised to
the input start.  The fuel 2 * length + 4 is proved sufficient. -/
def parse_uri (s : List Char) : PResult :=
  if s.length = 0 then .fail
  else
    match validate_scheme s with
    | none => .fail
    | some k =>
      hierLoop s (2 * s.length + 4) (k + 1) 0 0 .firstSlash { scheme := some (0, k) }

/-- Slice selected by an optional index pair (empty when absent). -/
def slOpt (s : List Char) (o : Option (Nat × Nat)) : List Char :=
  match o with
  | none => []
  | some ab => sl s ab

/-- Concatenation of the produced component slices with their original
delimiters: scheme ':', then — when a host slice is present, i.e. the
authority form was taken — "//", the optional user info followed by '@', the
host, and the optional ':' followed by the port; then the path, the optional
'?' followed by the query, and the optional '#' followed by the fragment. -/
def schemeRecon (s : List Char) (p : uri_parts) : List Char :=
  match p.scheme with
  | none => []
  | some a => sl s a ++ [':']

def hostRecon (s : List Char) (p : uri_parts) : List Char :=
  match p.host with
  | none => []
  | some h =>
    '/' :: '/' ::
      ((match p.user_info with
        | none => []
        | some u => sl s u ++ ['@']) ++
       sl s h ++
       (match p.port with
        | none => []
        | some pr => ':' :: sl s pr))

def tailRecon (s : List Char) (p : uri_parts) : List Char :=
  slOpt s p.path ++
    ((match p.query with
      | none => []
      | some q => '?' :: sl s q) ++
     (match p.fragment with
      | none => []
      | some f => '#' :: sl s f))

def reconstruct (s : List Char) (p : uri_parts) : List Char :=
  schemeRecon s p ++ hostRecon s p ++ tailRecon s p

/-- Present component slices in component order. -/
def presentSlices (p : uri_parts) : List (Nat × Nat) :=
  ([p.scheme, p.user_info, p.host, p.port, p.path, p.query, p.fragment]).filterMap id

/-- Delimiter characters that may legitimately separate component slices. -/
def isDelimC (c : Char) : Bool :=
  c == ':' || c == '/' || c == '@' || c == '?' || c == '#'

/-- Each present slice is a well-formed sub-span of an input of length n. -/
def slicesWF (n : Nat) (l : List (Nat × Nat)) : Bool :=
  l.all fun ab => decide (ab.1 ≤ ab.2) && decide (ab.2 ≤ n)

/-- Consecutive slices are ordered and disjoint. -/
def chainB : List (Nat × Nat) → Bool
  | a :: b :: r => decide (a.2 ≤ b.1) && chainB (b :: r)
  | _ => true

/-- Every character strictly between consecutive slices is a delimiter. -/
def gapDelimsB (s : List Char) : List (Nat × Nat) → Bool
  | a :: b :: r => (sl s (a.2, b.1)).all isDelimC && gapDelimsB s (b :: r)
  | _ => true

/-- Formalization of the slice-layout claim, all three parts: the present
slices are well-formed sub-spans of the input, pairwise disjoint and ordered
(consecutively chained in component order), and the gaps between consecutive
present slices hold only delimiter characters. -/
def sliceLayoutB (s : List Char) (p : uri_parts) : Bool :=
  slicesWF s.length (presentSlices p) && chainB (presentSlices p) &&
    gapDelimsB s (presentSlices p)

/-- A parse result has no bracket jump when its host slice, if it starts with
'[', starts exactly where the authority component starts: right after the "//"
(three places after the scheme end) or right after the user-info '@'.  The
authority scan of the C++ moves `first` to the position of a '[' seen anywhere
in the authority, which can leave characters before the '[' outside every
slice; this predicate rules that situation out. -/
def noJumpB (s : List Char) (p : uri_parts) : Bool :=
  match p.host with
  | none => true
  | some (hs, _) =>
    if nth s hs = some '[' then
      match p.user_info, p.scheme with
      | some (_, ue), _ => decide (hs = ue + 1)
      | none, some (_, k) => decide (hs = k + 3)
      | none, none => false
    else true

/-- Layout of the path, query and fragment slices produced once the scan has
committed to a path starting at position e: the path runs from e to some pe;
either the input ends there, or a '?' at pe opens a query that must end at a
'#' opening a fragment that runs to the end, or a '#' at pe opens a fragment
that runs to the end. -/
def SuffixShape (s : List Char) (e : Nat) (pa q f : Option (Nat × Nat)) : Prop :=
  ∃ pe, pa = some (e, pe) ∧ e ≤ pe ∧ pe ≤ s.length ∧
    ((pe = s.length ∧ q = none ∧ f = none)
     ∨ (nth s pe = some '?' ∧ ∃ qe, pe + 1 ≤ qe ∧ qe < s.length ∧ nth s qe = some '#' ∧
          q = some (pe + 1, qe) ∧ f = some (qe + 1, s.length))
     ∨ (nth s pe = some '#' ∧ q = none ∧ f = some (pe + 1, s.length)))

/-- Layout of the port (if any) and of the path/query/fragment after a host
slice ending at he: either there is no port and the path starts at he, or a
':' at he is followed by an all-digit port slice at whose end the path starts. -/
def PostHost (s : List Char) (he : Nat) (p : uri_parts) : Prop :=
  (p.port = none ∧ SuffixShape s he p.path p.query p.fragment)
  ∨ (nth s he = some ':' ∧
      ∃ pp, he + 1 ≤ pp ∧ pp ≤ s.length ∧ p.port = some (he + 1, pp) ∧
        is_valid_port (sl s (he + 1, pp)) = true ∧
        SuffixShape s pp p.path p.query p.fragment)

/-- Layout of a host slice starting at hs together with everything after it. -/
def HostOut (s : List Char) (hs : Nat) (p : uri_parts) : Prop :=
  ∃ he, hs ≤ he ∧ he ≤ s.length ∧ p.host = some (hs, he) ∧ PostHost s he p

/-- Layout of everything the authority scan can produce from an authority
starting at position first: either no user info — with the host starting at
first, or, after a bracket jump, at the position b > first of a '[' — or a
user-info slice ending at an '@' with the host starting right after it. -/
def AuthOut (s : List Char) (first : Nat) (p : uri_parts) : Prop :=
  (p.user_info = none ∧
    (HostOut s first p ∨ ∃ b, first < b ∧ nth s b = some '[' ∧ HostOut s b p))
  ∨ (∃ ua, first ≤ ua ∧ ua < s.length ∧ nth s ua = some '@' ∧
      p.user_info = some (first, ua) ∧ HostOut s (ua + 1) p)

/-- Rank of a hierarchical sub-state, used to bound the number of
non-consuming state transitions of the scan loop. -/
def hierRank : HierState → Nat
  | .firstSlash => 3
  | .secondSlash => 3
  | .authority => 2
  | .host => 2
  | .hostIpv6 => 1
  | .port => 1
  | .path => 0

theorem nth_ge_none {s : List Char} {i : Nat} (h : s.length ≤ i) : nth s i = none := by
  induction s generalizing i with
  | nil => cases i <;> rfl
  | cons c tl ih =>
    cases i with
    | zero => simp at h
    | succ j => exact ih (by simpa using h)

theorem nth_some_lt {s : List Char} {i : Nat} {c : Char} (h : nth s i = some c) :
    i < s.length := by
  by_contra hge
  rw [nth_ge_none (by omega)] at h
  cases h

theorem nth_lt_some {s : List Char} {i : Nat} (h : i < s.length) :
    ∃ c, nth s i = some c := by
  induction s generalizing i with
  | nil => simp at h
  | cons c tl ih =>
    cases i with
    | zero => exact ⟨c, rfl⟩
    | succ j => exact ih (by simpa using h)

theorem pchar_adv_bounds {s : List Char} {i j : Nat} (h : pchar_adv s i = some j) :
    i < j ∧ j ≤ s.length := by
  unfold pchar_adv at h
  split at h
  · cases h
  · rename_i c hc
    have hi := nth_some_lt hc
    split at h
    · injection h with h; omega
    · split at h
      · rename_i hp
        have h2 : i + 2 < s.length := by
          unfold pct_in at hp
          have := ((Bool.and_eq_true _ _).mp hp).1
          simpa using of_decide_eq_true this
        injection h with h; omega
      · split at h
        · injection h with h; omega
        · cases h

theorem fragmentPhase_ne_outOfFuel (s : List Char) (it : Nat) (parts : uri_parts) :
    fragmentPhase s it parts ≠ .outOfFuel := by
  unfold fragmentPhase
  split <;> simp

theorem queryPhase_ne_outOfFuel (s : List Char) (it : Nat) (parts : uri_parts) :
    queryPhase s it parts ≠ .outOfFuel := by
  unfold queryPhase
  split
  · simp
  · split
    · simp
    · split
      · exact fragmentPhase_ne_outOfFuel _ _ _
      · simp

theorem finalizeHier_ne_outOfFuel (s : List Char) (first lc : Nat) (hp : HierState)
    (parts : uri_parts) : finalizeHier s first lc hp parts ≠ .outOfFuel := by
  cases hp <;> unfold finalizeHier <;> (try split) <;> (try split) <;> simp

set_option maxHeartbeats 2000000 in
/-- The scan loop never exhausts its fuel when given at least twice the
remaining input length plus the state rank plus one: every iteration either
consumes at least one character or strictly lowers the state rank. -/
theorem hierLoop_fuel_enough (s : List Char) :
    ∀ fuel it first lc hp parts,
      2 * (s.length - it) + hierRank hp + 1 ≤ fuel →
      hierLoop s fuel it first lc hp parts ≠ .outOfFuel := by
  intro fuel
  induction fuel with
  | zero => intro it first lc hp parts h; omega
  | succ f ih =>
    intro it first lc hp parts h
    have hlt : ∀ {m : Nat} {c : Char}, nth s m = some c → m < s.length :=
      fun hm => nth_some_lt hm
    cases hp with
    | firstSlash =>
      simp only [hierLoop]
      split
      · exact finalizeHier_ne_outOfFuel _ _ _ _ _
      · rename_i hne
        split
        · simp
        · rename_i c hc
          have := hlt hc
          split
          · exact ih _ _ _ _ _ (by simp [hierRank] at h ⊢; omega)
          · exact ih _ _ _ _ _ (by simp [hierRank] at h ⊢; omega)
    | secondSlash =>
      simp only [hierLoop]
      split
      · exact finalizeHier_ne_outOfFuel _ _ _ _ _
      · rename_i hne
        split
        · simp
        · rename_i c hc
          have := hlt hc
          split
          · exact ih _ _ _ _ _ (by simp [hierRank] at h ⊢; omega)
          · exact ih _ _ _ _ _ (by simp [hierRank] at h ⊢; omega)
    | authority =>
      simp only [hierLoop]
      split
      · exact finalizeHier_ne_outOfFuel _ _ _ _ _
      · rename_i hne
        split
        · simp
        · rename_i cf hcf
          split
          · simp
          · split
            · simp
            · rename_i c hc
              have := hlt hc
              split
              · split
                · split
                  · simp
                  · split
                    · exact ih _ _ _ _ _ (by simp [hierRank] at h ⊢; omega)
                    · exact ih _ _ _ _ _ (by simp [hierRank] at h ⊢; omega)
                · simp
              · split
                · exact ih _ _ _ _ _ (by simp [hierRank] at h ⊢; omega)
                · split
                  · exact ih _ _ _ _ _ (by simp [hierRank] at h ⊢; omega)
                  · split
                    · split
                      · simp
                      · exact ih _ _ _ _ _ (by simp [hierRank] at h ⊢; omega)
                    · split
                      · split
                        · simp
                        · exact queryPhase_ne_outOfFuel _ _ _
                      · split
                        · split
                          · simp
                          · exact fragmentPhase_ne_outOfFuel _ _ _
                        · exact ih _ _ _ _ _ (by simp [hierRank] at h ⊢; omega)
    | host =>
      simp only [hierLoop]
      split
      · exact finalizeHier_ne_outOfFuel _ _ _ _ _
      · rename_i hne
        split
        · simp
        · rename_i cf hcf
          split
          · simp
          · split
            · simp
            · rename_i c hc
              have := hlt hc
              split
              · exact ih _ _ _ _ _ (by simp [hierRank] at h ⊢; omega)
              · split
                · exact ih _ _ _ _ _ (by simp [hierRank] at h ⊢; omega)
                · split
                  · exact queryPhase_ne_outOfFuel _ _ _
                  · split
                    · exact fragmentPhase_ne_outOfFuel _ _ _
                    · exact ih _ _ _ _ _ (by simp [hierRank] at h ⊢; omega)
    | hostIpv6 =>
      simp only [hierLoop]
      split
      · exact finalizeHier_ne_outOfFuel _ _ _ _ _
      · rename_i hne
        split
        · simp
        · rename_i cf hcf
          split
          · simp
          · split
            · simp
            · rename_i c hc
              have := hlt hc
              split
              · split
                · exact finalizeHier_ne_outOfFuel _ _ _ _ _
                · split
                  · simp
                  · rename_i c2 hc2
                    have := hlt hc2
                    split
                    · exact ih _ _ _ _ _ (by simp [hierRank] at h ⊢; omega)
                    · split
                      · exact ih _ _ _ _ _ (by simp [hierRank] at h ⊢; omega)
                      · split
                        · exact queryPhase_ne_outOfFuel _ _ _
                        · split
                          · exact fragmentPhase_ne_outOfFuel _ _ _
                          · exact ih _ _ _ _ _ (by simp [hierRank] at h ⊢; omega)
              · exact ih _ _ _ _ _ (by simp [hierRank] at h ⊢; omega)
    | port =>
      simp only [hierLoop]
      split
      · exact finalizeHier_ne_outOfFuel _ _ _ _ _
      · rename_i hne
        split
        · simp
        · rename_i cf hcf
          split
          · split
            · exact ih _ _ _ _ _ (by simp [hierRank] at h ⊢; omega)
            · simp
          · split
            · simp
            · rename_i c hc
              have := hlt hc
              split
              · split
                · exact ih _ _ _ _ _ (by simp [hierRank] at h ⊢; omega)
                · simp
              · split
                · exact ih _ _ _ _ _ (by simp [hierRank] at h ⊢; omega)
                · simp
    | path =>
      simp only [hierLoop]
      split
      · exact finalizeHier_ne_outOfFuel _ _ _ _ _
      · rename_i hne
        split
        · simp
        · rename_i c hc
          have := hlt hc
          split
          · exact queryPhase_ne_outOfFuel _ _ _
          · split
            · exact fragmentPhase_ne_outOfFuel _ _ _
            · split
              · rename_i j hj
                have := pchar_adv_bounds hj
                exact ih _ _ _ _ _ (by simp [hierRank] at h ⊢; omega)
              · split
                · exact ih _ _ _ _ _ (by simp [hierRank] at h ⊢; omega)
                · simp

/-- C3: parse_uri always terminates: the embedded scan loop spends one fuel
unit per iteration, parse_uri allots 2·length+4 units — linear in the input
length — and that fuel is never exhausted, so no input makes the main
character-consuming loop run forever. -/
theorem c3_parse_uri_terminates (s : List Char) : parse_uri s ≠ .outOfFuel := by
  unfold parse_uri
  split
  · simp
  · split
    · simp
    · exact hierLoop_fuel_enough s _ _ _ _ _ _ (by simp only [hierRank]; omega)

/-- C1: parsing foo://example.com:8042/over/there?name=ferret#nose succeeds
with scheme foo, no user info, host example.com, port 8042, path /over/there,
query name=ferret and fragment nose. -/
theorem c1_end_to_end :
    parse_uri (cs "foo://example.com:8042/over/there?name=ferret#nose") =
      .ok { scheme := some (0, 3), user_info := none, host := some (6, 17),
            port := some (18, 22), path := some (22, 33), query := some (34, 45),
            fragment := some (46, 50) } ∧
    sl (cs "foo://example.com:8042/over/there?name=ferret#nose") (0, 3) = cs "foo" ∧
    sl (cs "foo://example.com:8042/over/there?name=ferret#nose") (6, 17) = cs "example.com" ∧
    sl (cs "foo://example.com:8042/over/there?name=ferret#nose") (18, 22) = cs "8042" ∧
    sl (cs "foo://example.com:8042/over/there?name=ferret#nose") (22, 33) = cs "/over/there" ∧
    sl (cs "foo://example.com:8042/over/there?name=ferret#nose") (34, 45) = cs "name=ferret" ∧
    sl (cs "foo://example.com:8042/over/there?name=ferret#nose") (46, 50) = cs "nose" := by
  decide

/-- C2: the claim that parse_uri never reads at or past the end boundary is
false on the code: on a://h? the query phase reaches the end of input and line
377 dereferences the end boundary, and on http (no scheme ':') the cursor is
stepped past a nonexistent delimiter and the loop reads past the end. -/
theorem c2_reads_end_boundary :
    parse_uri (cs "a://h?") = .oob ∧ parse_uri (cs "http") = .oob := by decide

/-- C5: an empty input, a scheme starting with a digit, and a scheme with an
invalid character are all rejected as the claim states, but an input with no
':' terminator at all is not rejected: on http the code walks past the end
boundary (undefined behaviour) instead of failing. -/
theorem c5_scheme_rejections :
    parse_uri (cs "") = .fail ∧
    parse_uri (cs "1http://x") = .fail ∧
    parse_uri (cs "ht^tp:x") = .fail ∧
    parse_uri (cs "http") = .oob := by decide

/-- C6: the claim that an unterminated IPv6 literal fails is false on the
code: http://[::1 is accepted, with host equal to the whole bracket-open
remainder [::1 and an empty path. -/
theorem c6_unterminated_ipv6_accepted :
    parse_uri (cs "http://[::1") =
      .ok { scheme := some (0, 4), user_info := none, host := some (7, 11), port := none,
            path := some (11, 11), query := none, fragment := none } ∧
    sl (cs "http://[::1") (7, 11) = cs "[::1" := by decide

/-- C7: the claim that end-of-input in the host phase with no colon after the
'@' succeeds is false on the code: http://user@host fails, because the
end-of-input finalization reuses the stale last-colon marker from before the
'@' and the resulting port span fails validation. -/
theorem c7_user_at_host_eoi_fails :
    parse_uri (cs "http://user@host") = .fail := by decide

/-- C4 counterexample: the input a: is accepted with the scheme slice present
but no path slice at all, refuting the claim that the path component is always
present on success. -/
theorem c4_counterexample :
    parse_uri (cs "a:") = .ok { scheme := some (0, 1) } ∧
    ({ scheme := some (0, 1) } : uri_parts).path = none := by decide

/-- C8 counterexample: the input s://ab[c]/ is accepted, the characters ab of
the authority are covered by no slice (the '[' resets the component start),
and the slice-layout property of the claim fails on the produced parts. -/
theorem c8_counterexample :
    parse_uri (cs "s://ab[c]/") =
      .ok { scheme := some (0, 1), host := some (6, 9), path := some (9, 10) } ∧
    sliceLayoutB (cs "s://ab[c]/")
      { scheme := some (0, 1), host := some (6, 9), path := some (9, 10) } = false := by
  decide

/-- C9 counterexample: the input a:/ is accepted with no path slice, so
concatenating the produced slices with their delimiters yields a: and not the
original input. -/
theorem c9_counterexample :
    parse_uri (cs "a:/") = .ok { scheme := some (0, 1) } ∧
    reconstruct (cs "a:/") { scheme := some (0, 1) } ≠ cs "a:/" := by decide

theorem drop_eq_cons_nth {s : List Char} {i : Nat} {c : Char} {r : List Char}
    (h : List.drop i s = c :: r) : nth s i = some c ∧ List.drop (i + 1) s = r := by
  induction s generalizing i with
  | nil => simp at h
  | cons d tl ih =>
    cases i with
    | zero =>
      simp only [List.drop_zero] at h
      cases h
      exact ⟨rfl, by simp⟩
    | succ i2 =>
      have := ih (by simpa using h)
      exact ⟨this.1, by simpa using this.2⟩

theorem drop_nil_len {s : List Char} {i : Nat} (h : List.drop i s = []) :
    s.length ≤ i := by
  have := congrArg List.length h
  simp at this
  omega

theorem drop_cons_lt {s : List Char} {i : Nat} {c : Char} {r : List Char}
    (h : List.drop i s = c :: r) : i < s.length := by
  have := congrArg List.length h
  simp at this
  omega

theorem sl_append {s : List Char} {a b c : Nat} (hab : a ≤ b) (hbc : b ≤ c) :
    sl s (a, b) ++ sl s (b, c) = sl s (a, c) := by
  unfold sl
  simp only
  have h1 : List.drop b s = (List.drop a s).drop (b - a) := by
    rw [List.drop_drop]
    congr 1
    omega
  rw [h1, ← List.take_add]
  congr 1
  omega

theorem sl_single {s : List Char} {b : Nat} {d : Char} (h : nth s b = some d) :
    sl s (b, b + 1) = [d] := by
  induction s generalizing b with
  | nil => cases h
  | cons cHead tl ih =>
    cases b with
    | zero =>
      injection h with h
      subst h
      rfl
    | succ b2 =>
      have h2 : nth tl b2 = some d := by simpa [nth] using h
      have := ih h2
      simpa [sl] using this

theorem sl_glue {s : List Char} {a b c : Nat} {d : Char} (hab : a ≤ b) (hbc : b + 1 ≤ c)
    (h : nth s b = some d) : sl s (a, b) ++ d :: sl s (b + 1, c) = sl s (a, c) := by
  have h1 : d :: sl s (b + 1, c) = sl s (b, b + 1) ++ sl s (b + 1, c) := by
    rw [sl_single h]
    rfl
  rw [h1, sl_append (by omega) hbc, sl_append hab (by omega)]

theorem sl_to_end (s : List Char) (a : Nat) : sl s (a, s.length) = List.drop a s := by
  unfold sl
  simp only
  exact List.take_of_length_le (by simp)

theorem sl_whole (s : List Char) : sl s (0, s.length) = s := by
  simpa using sl_to_end s 0

theorem sl_nil (s : List Char) (a : Nat) : sl s (a, a) = [] := by
  simp [sl]

set_option maxHeartbeats 1600000 in
theorem validate_query_spec (s : List Char) :
    ∀ m rest i j, rest.length ≤ m → rest = List.drop i s → i ≤ s.length →
      validate_query rest i = some j →
      i ≤ j ∧ j ≤ s.length ∧ (j = s.length ∨ nth s j = some '#') := by
  intro m
  induction m with
  | zero =>
    intro rest i j hm hr hi h
    have hrest : rest = [] := List.length_eq_zero.mp (by omega)
    subst hrest
    unfold validate_query at h
    injection h with h
    subst h
    have := drop_nil_len hr.symm
    exact ⟨Nat.le_refl _, hi, Or.inl (by omega)⟩
  | succ m ih =>
    intro rest i j hm hr hi h
    unfold validate_query at h
    split at h
    · injection h with h
      subst h
      have := drop_nil_len hr.symm
      exact ⟨Nat.le_refl _, hi, Or.inl (by omega)⟩
    · rename_i c1 c2 r
      obtain ⟨hn0, hd1⟩ := drop_eq_cons_nth hr.symm
      obtain ⟨hn1, hd2⟩ := drop_eq_cons_nth hd1
      obtain ⟨hn2, hd3⟩ := drop_eq_cons_nth hd2
      have hi3 : i + 3 ≤ s.length := by
        have := drop_cons_lt hd2
        omega
      split at h
      · have hlen : r.length ≤ m := by
          simp at hm
          omega
        have := ih r (i + 3) j hlen hd3.symm hi3 h
        exact ⟨by omega, this.2.1, this.2.2⟩
      · cases h
    · rename_i c r hne1
      obtain ⟨hn0, hd1⟩ := drop_eq_cons_nth hr.symm
      have hlt := drop_cons_lt hr.symm
      split at h
      · have hlen : r.length ≤ m := by
          simp at hm
          omega
        have := ih r (i + 1) j hlen hd1.symm (by omega) h
        exact ⟨by omega, this.2.1, this.2.2⟩
      · split at h
        · injection h with h
          subst h
          rename_i hc
          refine ⟨Nat.le_refl _, by omega, Or.inr ?_⟩
          rw [hn0]
          have : c = '#' := by simpa using hc
          rw [this]
        · cases h

theorem schemeLoop_spec (s : List Char) :
    ∀ rest, ∀ i k, rest = List.drop i s → i ≤ s.length → schemeLoop rest i = some k →
      i ≤ k ∧ k ≤ s.length ∧ (k = s.length ∨ nth s k = some ':') := by
  intro rest
  induction rest with
  | nil =>
    intro i k hr hi h
    unfold schemeLoop at h
    injection h with h
    subst h
    have := drop_nil_len hr.symm
    exact ⟨Nat.le_refl _, hi, Or.inl (by omega)⟩
  | cons c r ih =>
    intro i k hr hi h
    obtain ⟨hn0, hd1⟩ := drop_eq_cons_nth hr.symm
    have hlt := drop_cons_lt hr.symm
    unfold schemeLoop at h
    split at h
    · injection h with h
      subst h
      rename_i hc
      exact ⟨Nat.le_refl _, by omega, Or.inr (by rw [hn0, hc])⟩
    · split at h
      · have := ih (i + 1) k hd1.symm (by omega) h
        exact ⟨by omega, this.2⟩
      · cases h

theorem validate_scheme_spec {s : List Char} {k : Nat} (h : validate_scheme s = some k) :
    1 ≤ k ∧ k ≤ s.length ∧ (k = s.length ∨ nth s k = some ':') ∧
      ∃ c0, nth s 0 = some c0 ∧ isAlphaC c0 = true := by
  unfold validate_scheme at h
  split at h
  · cases h
  · rename_i c r
    split at h
    · rename_i ha
      have := schemeLoop_spec (c :: r) r 1 k (by simp) (by simp) h
      exact ⟨this.1, this.2.1, this.2.2, c, rfl, ha⟩
    · cases h

theorem fragmentPhase_ok {s : List Char} {it : Nat} {parts p : uri_parts}
    (h : fragmentPhase s it parts = .ok p) :
    p = { parts with fragment := some (it, s.length) } := by
  unfold fragmentPhase at h
  split at h
  · injection h with h
    exact h.symm
  · cases h

theorem queryPhase_ok {s : List Char} {it : Nat} {parts p : uri_parts}
    (hit : it ≤ s.length) (h : queryPhase s it parts = .ok p) :
    ∃ qe, it ≤ qe ∧ qe < s.length ∧ nth s qe = some '#' ∧
      p = { parts with query := some (it, qe), fragment := some (qe + 1, s.length) } := by
  unfold queryPhase at h
  split at h
  · cases h
  · rename_i j hq
    have hspec := validate_query_spec s (List.drop it s).length _ it j (Nat.le_refl _) rfl hit hq
    split at h
    · cases h
    · rename_i c hc
      split at h
      · rename_i hcc
        have hp := fragmentPhase_ok h
        subst hcc
        refine ⟨j, hspec.1, nth_some_lt hc, hc, ?_⟩
        rw [hp]
      · rename_i hcc
        exfalso
        rcases hspec.2.2 with hj | hj
        · subst hj
          exact absurd (nth_some_lt hc) (by omega)
        · rw [hj] at hc
          injection hc with hc
          exact hcc hc.symm

theorem nth_drop_cons {s : List Char} {a : Nat} {c : Char} (h : nth s a = some c) :
    List.drop a s = c :: List.drop (a + 1) s := by
  induction s generalizing a with
  | nil => cases h
  | cons d tl ih =>
    cases a with
    | zero =>
      injection h with h
      subst h
      rfl
    | succ a2 =>
      have h2 : nth tl a2 = some c := by simpa [nth] using h
      simpa using ih h2

theorem is_valid_port_mem {l : List Char} (h : is_valid_port l = true) :
    ∀ c ∈ l, isDigitC c = true := by
  induction l with
  | nil => intro c hc; cases hc
  | cons d tl ih =>
    unfold is_valid_port at h
    obtain ⟨h1, h2⟩ := (Bool.and_eq_true _ _).mp h
    intro c hc
    rcases List.mem_cons.mp hc with hd | htl
    · subst hd; exact h1
    · exact ih h2 c htl

theorem mem_sl {s : List Char} {a b j : Nat} {c : Char} (h1 : a ≤ j) (h2 : j < b)
    (hc : nth s j = some c) : c ∈ sl s (a, b) := by
  rw [← sl_glue h1 (by omega) hc]
  simp

theorem is_valid_port_pos {s : List Char} {a b j : Nat} {c : Char} (h1 : a ≤ j)
    (h2 : j < b) (hc : nth s j = some c) (hv : is_valid_port (sl s (a, b)) = true) :
    isDigitC c = true :=
  is_valid_port_mem hv c (mem_sl h1 h2 hc)

theorem hierLoop_path_ok {s : List Char} :
    ∀ fuel {it first lc : Nat} {parts p : uri_parts}, first ≤ it →
      parts.query = none → parts.fragment = none →
      hierLoop s fuel it first lc .path parts = .ok p →
      p.scheme = parts.scheme ∧ p.user_info = parts.user_info ∧ p.host = parts.host ∧
        p.port = parts.port ∧ SuffixShape s first p.path p.query p.fragment := by
  intro fuel
  induction fuel with
  | zero =>
    intro it first lc parts p hfi hq0 hf0 h
    cases h
  | succ f ih =>
    intro it first lc parts p hfi hq0 hf0 h
    simp only [hierLoop] at h
    split at h
    · rename_i hit
      simp only [finalizeHier] at h
      injection h with h
      subst h
      exact ⟨rfl, rfl, rfl, rfl, s.length, rfl, by omega, Nat.le_refl _,
        Or.inl ⟨rfl, hq0, hf0⟩⟩
    · rename_i hit
      split at h
      · cases h
      · rename_i c hc
        have hitn := nth_some_lt hc
        split at h
        · rename_i hcq
          subst hcq
          obtain ⟨qe, hq1, hq2, hq3, hp⟩ := queryPhase_ok (by omega) h
          subst hp
          exact ⟨rfl, rfl, rfl, rfl, it, rfl, hfi, by omega,
            Or.inr (Or.inl ⟨hc, qe, hq1, hq2, hq3, rfl, rfl⟩)⟩
        · split at h
          · rename_i hcf
            subst hcf
            have hp := fragmentPhase_ok h
            subst hp
            exact ⟨rfl, rfl, rfl, rfl, it, rfl, hfi, by omega,
              Or.inr (Or.inr ⟨hc, hq0, rfl⟩)⟩
          · split at h
            · rename_i j hj
              have hb := pchar_adv_bounds hj
              exact ih (by omega) hq0 hf0 h
            · split at h
              · exact ih (by omega) hq0 hf0 h
              · cases h

theorem hierLoop_port_ok {s : List Char} :
    ∀ fuel {it first lc : Nat} {parts p : uri_parts}, first ≤ it →
      parts.query = none → parts.fragment = none →
      hierLoop s fuel it first lc .port parts = .ok p →
      p.scheme = parts.scheme ∧ p.user_info = parts.user_info ∧ p.host = parts.host ∧
        ∃ pp, first ≤ pp ∧ pp ≤ s.length ∧ p.port = some (first, pp) ∧
          is_valid_port (sl s (first, pp)) = true ∧
          SuffixShape s pp p.path p.query p.fragment := by
  intro fuel
  induction fuel with
  | zero =>
    intro it first lc parts p hfi hq0 hf0 h
    cases h
  | succ f ih =>
    intro it first lc parts p hfi hq0 hf0 h
    simp only [hierLoop] at h
    split at h
    · rename_i hit
      simp only [finalizeHier] at h
      split at h
      · rename_i hv
        injection h with h
        subst h
        exact ⟨rfl, rfl, rfl, s.length, by omega, Nat.le_refl _, rfl, hv,
          s.length, rfl, Nat.le_refl _, Nat.le_refl _, Or.inl ⟨rfl, hq0, hf0⟩⟩
      · cases h
    · rename_i hit
      split at h
      · cases h
      · rename_i cf hcf
        have hfn := nth_some_lt hcf
        split at h
        · rename_i hcfs
          split at h
          · rename_i hv
            have hfe : first = it := by
              rcases Nat.lt_or_ge first it with hlt | hge
              · have hdig := is_valid_port_pos (Nat.le_refl first) hlt hcf hv
                rw [hcfs] at hdig
                exact absurd hdig (by decide)
              · omega
            have hres := hierLoop_path_ok f hfi
              (show ({ parts with port := some (first, it) } : uri_parts).query = none from hq0)
              (show ({ parts with port := some (first, it) } : uri_parts).fragment = none from hf0) h
            refine ⟨hres.1, hres.2.1, hres.2.2.1, it, hfi, by omega, ?_, hv, ?_⟩
            · rw [hres.2.2.2.1]
            · rw [← hfe]
              exact hres.2.2.2.2
          · cases h
        · split at h
          · cases h
          · rename_i c hc
            have hitn := nth_some_lt hc
            split at h
            · rename_i hcs
              split at h
              · rename_i hv
                have hres := hierLoop_path_ok f (Nat.le_refl it)
                  (show ({ parts with port := some (first, it) } : uri_parts).query = none from hq0)
                  (show ({ parts with port := some (first, it) } : uri_parts).fragment = none from hf0) h
                refine ⟨hres.1, hres.2.1, hres.2.2.1, it, hfi, by omega, ?_, hv,
                  hres.2.2.2.2⟩
                rw [hres.2.2.2.1]
              · cases h
            · split at h
              · exact ih (by omega) hq0 hf0 h
              · cases h

theorem set_host_and_port_stale (parts : uri_parts) {s : List Char} {first last lc : Nat}
    (hne : first ≠ lc) (hbad : is_valid_port (sl s (lc + 1, last)) = false) :
    set_host_and_port s first last lc parts = none := by
  unfold set_host_and_port
  rw [if_neg hne, hbad]
  simp

theorem port_span_invalid {s : List Char} {lc j last : Nat} {c : Char} (h1 : lc < j)
    (h2 : j < last) (hc : nth s j = some c) (hnd : isDigitC c = false) :
    is_valid_port (sl s (lc + 1, last)) = false := by
  rcases Bool.eq_false_or_eq_true (is_valid_port (sl s (lc + 1, last))) with hb | hb
  · have hd := is_valid_port_pos (by omega) h2 hc hb
    rw [hnd] at hd
    cases hd
  · exact hb

theorem hierLoop_host_ok {s : List Char} :
    ∀ fuel {it first lc : Nat} {parts p : uri_parts}, first ≤ it → it ≤ s.length →
      parts.query = none → parts.fragment = none → parts.port = none →
      (∃ a, first = a + 1 ∧ nth s a = some '@' ∧ lc ≤ a ∧ nth s lc ≠ some '@') →
      hierLoop s fuel it first lc .host parts = .ok p →
      p.scheme = parts.scheme ∧ p.user_info = parts.user_info ∧ HostOut s first p := by
  intro fuel
  induction fuel with
  | zero =>
    intro it first lc parts p hfi hin hq0 hf0 hp0 hstale h
    cases h
  | succ f ih =>
    intro it first lc parts p hfi hin hq0 hf0 hp0 hstale h
    obtain ⟨a, hfa, hna, hlca, hlcne⟩ := hstale
    have hlc_lt : lc < a := by
      rcases Nat.lt_or_ge lc a with hlt | hge
      · exact hlt
      · exfalso
        have heq : lc = a := by omega
        subst heq
        exact hlcne hna
    simp only [hierLoop] at h
    split at h
    · rename_i hit
      exfalso
      have hbad := port_span_invalid hlc_lt (nth_some_lt hna) hna (by decide)
      have hnone := set_host_and_port_stale parts (show first ≠ lc by omega) hbad
      simp only [finalizeHier, hnone] at h
      cases h
    · rename_i hit
      split at h
      · cases h
      · rename_i cf hcf
        split at h
        · cases h
        · split at h
          · cases h
          · rename_i c hc
            have hitn := nth_some_lt hc
            split at h
            · rename_i hcc
              subst hcc
              have hres := hierLoop_port_ok f (Nat.le_refl (it + 1))
                (show ({ parts with host := some (first, it) } : uri_parts).query = none from hq0)
                (show ({ parts with host := some (first, it) } : uri_parts).fragment = none from hf0)
                h
              obtain ⟨hs1, hs2, hs3, pp, hpp1, hpp2, hpp3, hpp4, hsfx⟩ := hres
              refine ⟨hs1, hs2, it, hfi, by omega, by rw [hs3],
                Or.inr ⟨hc, pp, hpp1, hpp2, hpp3, hpp4, hsfx⟩⟩
            · split at h
              · rename_i hcc
                subst hcc
                have hres := hierLoop_path_ok f (Nat.le_refl it)
                  (show ({ parts with host := some (first, it) } : uri_parts).query = none from hq0)
                  (show ({ parts with host := some (first, it) } : uri_parts).fragment = none from hf0)
                  h
                obtain ⟨hs1, hs2, hs3, hs4, hsfx⟩ := hres
                refine ⟨hs1, hs2, it, hfi, by omega, by rw [hs3],
                  Or.inl ⟨by rw [hs4]; exact hp0, hsfx⟩⟩
              · split at h
                · rename_i hcc
                  subst hcc
                  obtain ⟨qe, hq1, hq2, hq3, hp⟩ := queryPhase_ok (by omega) h
                  subst hp
                  exact ⟨rfl, rfl, it, hfi, by omega, rfl,
                    Or.inl ⟨hp0, it, rfl, Nat.le_refl _, by omega,
                      Or.inr (Or.inl ⟨hc, qe, hq1, hq2, hq3, rfl, rfl⟩)⟩⟩
                · split at h
                  · rename_i hcc
                    subst hcc
                    have hp := fragmentPhase_ok h
                    subst hp
                    exact ⟨rfl, rfl, it, hfi, by omega, rfl,
                      Or.inl ⟨hp0, it, rfl, Nat.le_refl _, by omega,
                        Or.inr (Or.inr ⟨hc, hq0, rfl⟩)⟩⟩
                  · exact ih (by omega) (by omega) hq0 hf0 hp0
                      ⟨a, hfa, hna, hlca, hlcne⟩ h

theorem finalize_ipv6_ok {s : List Char} {first lc : Nat} {parts p : uri_parts}
    (hq0 : parts.query = none) (hf0 : parts.fragment = none) (hp0 : parts.port = none)
    (hbr : nth s first = some '[') (hlc : lc ≤ first)
    (h : finalizeHier s first lc .hostIpv6 parts = .ok p) :
    p.scheme = parts.scheme ∧ p.user_info = parts.user_info ∧ HostOut s first p := by
  have hfn := nth_some_lt hbr
  simp only [finalizeHier] at h
  rcases Nat.eq_or_lt_of_le hlc with heq | hlt
  · have hset : set_host_and_port s first s.length lc parts =
        some { parts with host := some (first, s.length) } := by
      unfold set_host_and_port
      rw [if_pos heq.symm]
    simp only [hset] at h
    injection h with h
    subst h
    exact ⟨rfl, rfl, s.length, by omega, Nat.le_refl _, rfl,
      Or.inl ⟨hp0, s.length, rfl, Nat.le_refl _, Nat.le_refl _, Or.inl ⟨rfl, hq0, hf0⟩⟩⟩
  · exfalso
    have hbad := port_span_invalid hlt hfn hbr (by decide)
    rw [set_host_and_port_stale parts (by omega) hbad] at h
    cases h

theorem hierLoop_ipv6_ok {s : List Char} :
    ∀ fuel {it first lc : Nat} {parts p : uri_parts}, first ≤ it → it ≤ s.length →
      parts.query = none → parts.fragment = none → parts.port = none →
      nth s first = some '[' → lc ≤ first →
      hierLoop s fuel it first lc .hostIpv6 parts = .ok p →
      p.scheme = parts.scheme ∧ p.user_info = parts.user_info ∧ HostOut s first p := by
  intro fuel
  induction fuel with
  | zero =>
    intro it first lc parts p _ _ _ _ _ _ _ h
    cases h
  | succ f ih =>
    intro it first lc parts p hfi hin hq0 hf0 hp0 hbr hlc h
    simp only [hierLoop] at h
    split at h
    · exact finalize_ipv6_ok hq0 hf0 hp0 hbr hlc h
    · rename_i hit
      split at h
      · cases h
      · rename_i cf hcf
        split at h
        · cases h
        · split at h
          · cases h
          · rename_i c hc
            have hitn := nth_some_lt hc
            split at h
            · split at h
              · exact finalize_ipv6_ok hq0 hf0 hp0 hbr hlc h
              · rename_i hit1
                split at h
                · cases h
                · rename_i c2 hc2
                  have hit1n := nth_some_lt hc2
                  split at h
                  · rename_i hcc
                    subst hcc
                    have hres := hierLoop_port_ok f (Nat.le_refl (it + 2))
                      (show ({ parts with host := some (first, it + 1) } : uri_parts).query = none
                        from hq0)
                      (show ({ parts with host := some (first, it + 1) } : uri_parts).fragment = none
                        from hf0)
                      h
                    obtain ⟨hs1, hs2, hs3, pp, hpp1, hpp2, hpp3, hpp4, hsfx⟩ := hres
                    exact ⟨hs1, hs2, it + 1, by omega, by omega, by rw [hs3],
                      Or.inr ⟨hc2, pp, by omega, hpp2, hpp3, hpp4, hsfx⟩⟩
                  · split at h
                    · rename_i hcc
                      subst hcc
                      have hres := hierLoop_path_ok f (Nat.le_refl (it + 1))
                        (show ({ parts with host := some (first, it + 1) } : uri_parts).query = none
                          from hq0)
                        (show ({ parts with host := some (first, it + 1) } : uri_parts).fragment = none
                          from hf0)
                        h
                      obtain ⟨hs1, hs2, hs3, hs4, hsfx⟩ := hres
                      exact ⟨hs1, hs2, it + 1, by omega, by omega, by rw [hs3],
                        Or.inl ⟨by rw [hs4]; exact hp0, hsfx⟩⟩
                    · split at h
                      · rename_i hcc
                        subst hcc
                        obtain ⟨qe, hq1, hq2, hq3, hp⟩ := queryPhase_ok (by omega) h
                        subst hp
                        exact ⟨rfl, rfl, it + 1, by omega, by omega, rfl,
                          Or.inl ⟨hp0, it + 1, rfl, Nat.le_refl _, by omega,
                            Or.inr (Or.inl ⟨hc2, qe, hq1, hq2, hq3, rfl, rfl⟩)⟩⟩
                      · split at h
                        · rename_i hcc
                          subst hcc
                          have hp := fragmentPhase_ok h
                          subst hp
                          exact ⟨rfl, rfl, it + 1, by omega, by omega, rfl,
                            Or.inl ⟨hp0, it + 1, rfl, Nat.le_refl _, by omega,
                              Or.inr (Or.inr ⟨hc2, hq0, rfl⟩)⟩⟩
                        · exact ih (by omega) (by omega) hq0 hf0 hp0 hbr hlc h
            · exact ih (by omega) (by omega) hq0 hf0 hp0 hbr hlc h

set_option maxHeartbeats 2000000 in
theorem hierLoop_auth_ok {s : List Char} :
    ∀ fuel {it first lc : Nat} {parts p : uri_parts}, first ≤ it → it ≤ s.length →
      first < s.length →
      parts.query = none → parts.fragment = none → parts.port = none →
      parts.user_info = none →
      (it = first ∨ lc = first ∨ (first < lc ∧ lc < it ∧ nth s lc = some ':')) →
      hierLoop s fuel it first lc .authority parts = .ok p →
      p.scheme = parts.scheme ∧ AuthOut s first p := by
  intro fuel
  induction fuel with
  | zero =>
    intro it first lc parts p _ _ _ _ _ _ _ _ h
    cases h
  | succ f ih =>
    intro it first lc parts p hfi hin hfn hq0 hf0 hp0 hu0 hinv h
    simp only [hierLoop] at h
    split at h
    · rename_i hit
      rcases hinv with hinv | hinv | hinv
      · omega
      · have hset : set_host_and_port s first s.length lc parts =
            some { parts with host := some (first, s.length) } := by
          unfold set_host_and_port
          rw [if_pos hinv.symm]
        simp only [finalizeHier, hset] at h
        injection h with h
        subst h
        exact ⟨rfl, Or.inl ⟨hu0, Or.inl ⟨s.length, by omega, Nat.le_refl _, rfl,
          Or.inl ⟨hp0, s.length, rfl, Nat.le_refl _, Nat.le_refl _,
            Or.inl ⟨rfl, hq0, hf0⟩⟩⟩⟩⟩
      · obtain ⟨hl1, hl2, hl3⟩ := hinv
        simp only [finalizeHier] at h
        unfold set_host_and_port at h
        rw [if_neg (by omega)] at h
        split at h
        · cases h
        · rename_i parts2 heq2
          split at heq2
          · rename_i hv
            injection heq2 with heq2
            subst heq2
            injection h with h
            subst h
            exact ⟨rfl, Or.inl ⟨hu0, Or.inl ⟨lc, by omega, by omega, rfl,
              Or.inr ⟨hl3, s.length, by omega, Nat.le_refl _, rfl, hv,
                s.length, rfl, Nat.le_refl _, Nat.le_refl _, Or.inl ⟨rfl, hq0, hf0⟩⟩⟩⟩⟩
          · cases heq2
    · rename_i hit
      split at h
      · cases h
      · rename_i cf hcf
        split at h
        · cases h
        · rename_i hchk0
          have hchk : ¬cf = '@' ∧ ¬cf = ':' := by simpa using hchk0
          by_cases hfit : first = it
          · subst hfit
            have hlc_eq : (if first = first then first else lc) = first := if_pos rfl
            rw [hlc_eq] at h
            split at h
            · cases h
            · rename_i c hc
              have hcc : cf = c := by
                rw [hcf] at hc
                injection hc
              split at h
              · rename_i hca
                exact absurd (by rw [hcc, hca]) hchk.1
              · split at h
                · rename_i hcb
                  subst hcb
                  have hres := hierLoop_ipv6_ok f (Nat.le_refl first) hin hq0 hf0 hp0
                    (by rw [hcf, hcc]) (Nat.le_refl first) h
                  exact ⟨hres.1, Or.inl ⟨by rw [hres.2.1]; exact hu0, Or.inl hres.2.2⟩⟩
                · split at h
                  · rename_i hcb
                    exact absurd (by rw [hcc, hcb]) hchk.2
                  · split at h
                    · rename_i hcb
                      subst hcb
                      split at h
                      · cases h
                      · rename_i parts2 hset
                        unfold set_host_and_port at hset
                        rw [if_pos rfl] at hset
                        injection hset with hset
                        subst hset
                        have hres := hierLoop_path_ok f (Nat.le_refl first)
                          (show ({ parts with host := some (first, first) } : uri_parts).query = none from hq0)
                          (show ({ parts with host := some (first, first) } : uri_parts).fragment = none from hf0) h
                        obtain ⟨hs1, hs2, hs3, hs4, hsfx⟩ := hres
                        exact ⟨hs1, Or.inl ⟨by rw [hs2]; exact hu0,
                          Or.inl ⟨first, Nat.le_refl _, by omega, by rw [hs3],
                            Or.inl ⟨by rw [hs4]; exact hp0, hsfx⟩⟩⟩⟩
                    · split at h
                      · rename_i hcb
                        subst hcb
                        split at h
                        · cases h
                        · rename_i parts2 hset
                          unfold set_host_and_port at hset
                          rw [if_pos rfl] at hset
                          injection hset with hset
                          subst hset
                          obtain ⟨qe, hq1, hq2, hq3, hp⟩ := queryPhase_ok (by omega) h
                          subst hp
                          exact ⟨rfl, Or.inl ⟨hu0,
                            Or.inl ⟨first, Nat.le_refl _, by omega, rfl,
                              Or.inl ⟨hp0, first, rfl, Nat.le_refl _, by omega,
                                Or.inr (Or.inl ⟨hc, qe, hq1, hq2, hq3, rfl, rfl⟩)⟩⟩⟩⟩
                      · split at h
                        · rename_i hcb
                          subst hcb
                          split at h
                          · cases h
                          · rename_i parts2 hset
                            unfold set_host_and_port at hset
                            rw [if_pos rfl] at hset
                            injection hset with hset
                            subst hset
                            have hp := fragmentPhase_ok h
                            subst hp
                            exact ⟨rfl, Or.inl ⟨hu0,
                              Or.inl ⟨first, Nat.le_refl _, by omega, rfl,
                                Or.inl ⟨hp0, first, rfl, Nat.le_refl _, by omega,
                                  Or.inr (Or.inr ⟨hc, hq0, rfl⟩)⟩⟩⟩⟩
                        · exact ih (by omega) (by omega) hfn hq0 hf0 hp0 hu0
                            (Or.inr (Or.inl rfl)) h
          · have hlc_eq : (if first = it then first else lc) = lc := if_neg hfit
            rw [hlc_eq] at h
            have hinv2 : lc = first ∨ (first < lc ∧ lc < it ∧ nth s lc = some ':') := by
              rcases hinv with hinv | hinv | hinv
              · omega
              · exact Or.inl hinv
              · exact Or.inr hinv
            split at h
            · cases h
            · rename_i c hc
              have hitn := nth_some_lt hc
              split at h
              · rename_i hca
                subst hca
                split at h
                · rename_i hui
                  split at h
                  · cases h
                  · rename_i c2 hc2
                    have hlcne : nth s lc ≠ some '@' := by
                      rcases hinv2 with h1 | h1
                      · rw [h1, hcf]
                        intro hx
                        injection hx with hx
                        exact hchk.1 hx
                      · rw [h1.2.2]
                        intro hx
                        injection hx with hx
                        exact absurd hx (by decide)
                    split at h
                    · rename_i hcb
                      subst hcb
                      have hres := hierLoop_ipv6_ok f (Nat.le_refl (it + 1)) (by omega)
                        (show ({ parts with user_info := some (first, it) } : uri_parts).query = none from hq0)
                        (show ({ parts with user_info := some (first, it) } : uri_parts).fragment = none from hf0)
                        (show ({ parts with user_info := some (first, it) } : uri_parts).port = none from hp0)
                        hc2 (by rcases hinv2 with h1 | h1 <;> omega) h
                      exact ⟨hres.1, Or.inr ⟨it, hfi, hitn, hc, by rw [hres.2.1], hres.2.2⟩⟩
                    · have hres := hierLoop_host_ok f (Nat.le_refl (it + 1)) (by omega)
                        (show ({ parts with user_info := some (first, it) } : uri_parts).query = none from hq0)
                        (show ({ parts with user_info := some (first, it) } : uri_parts).fragment = none from hf0)
                        (show ({ parts with user_info := some (first, it) } : uri_parts).port = none from hp0)
                        ⟨it, rfl, hc, by rcases hinv2 with h1 | h1 <;> omega, hlcne⟩ h
                      exact ⟨hres.1, Or.inr ⟨it, hfi, hitn, hc, by rw [hres.2.1], hres.2.2⟩⟩
                · cases h
              · split at h
                · rename_i hcb
                  subst hcb
                  have hres := hierLoop_ipv6_ok f (Nat.le_refl it) hin hq0 hf0 hp0 hc
                    (by rcases hinv2 with h1 | h1 <;> omega) h
                  exact ⟨hres.1, Or.inl ⟨by rw [hres.2.1]; exact hu0,
                    Or.inr ⟨it, by omega, hc, hres.2.2⟩⟩⟩
                · split at h
                  · rename_i hcb
                    subst hcb
                    exact ih (by omega) (by omega) hfn hq0 hf0 hp0 hu0
                      (Or.inr (Or.inr ⟨by omega, by omega, hc⟩)) h
                  · split at h
                    · rename_i hcb
                      subst hcb
                      split at h
                      · cases h
                      · rename_i parts2 hset
                        unfold set_host_and_port at hset
                        split at hset
                        · rename_i heq
                          injection hset with hset
                          subst hset
                          have hres := hierLoop_path_ok f (Nat.le_refl it)
                            (show ({ parts with host := some (first, it) } : uri_parts).query = none from hq0)
                            (show ({ parts with host := some (first, it) } : uri_parts).fragment = none from hf0) h
                          obtain ⟨hs1, hs2, hs3, hs4, hsfx⟩ := hres
                          exact ⟨hs1, Or.inl ⟨by rw [hs2]; exact hu0,
                            Or.inl ⟨it, hfi, by omega, by rw [hs3],
                              Or.inl ⟨by rw [hs4]; exact hp0, hsfx⟩⟩⟩⟩
                        · rename_i hne
                          split at hset
                          · rename_i hv
                            injection hset with hset
                            subst hset
                            have hcol : first < lc ∧ lc < it ∧ nth s lc = some ':' := by
                              rcases hinv2 with h1 | h1
                              · exact absurd h1.symm hne
                              · exact h1
                            have hres := hierLoop_path_ok f (Nat.le_refl it)
                              (show ({ parts with host := some (first, lc), port := some (lc + 1, it) } : uri_parts).query = none from hq0)
                              (show ({ parts with host := some (first, lc), port := some (lc + 1, it) } : uri_parts).fragment = none from hf0) h
                            obtain ⟨hs1, hs2, hs3, hs4, hsfx⟩ := hres
                            exact ⟨hs1, Or.inl ⟨by rw [hs2]; exact hu0,
                              Or.inl ⟨lc, by omega, by omega, by rw [hs3],
                                Or.inr ⟨hcol.2.2, it, by omega, by omega, by rw [hs4], hv,
                                  hsfx⟩⟩⟩⟩
                          · cases hset
                    · split at h
                      · rename_i hcb
                        subst hcb
                        split at h
                        · cases h
                        · rename_i parts2 hset
                          unfold set_host_and_port at hset
                          split at hset
                          · rename_i heq
                            injection hset with hset
                            subst hset
                            obtain ⟨qe, hq1, hq2, hq3, hp⟩ := queryPhase_ok (by omega) h
                            subst hp
                            exact ⟨rfl, Or.inl ⟨hu0,
                              Or.inl ⟨it, hfi, by omega, rfl,
                                Or.inl ⟨hp0, it, rfl, Nat.le_refl _, by omega,
                                  Or.inr (Or.inl ⟨hc, qe, hq1, hq2, hq3, rfl, rfl⟩)⟩⟩⟩⟩
                          · rename_i hne
                            split at hset
                            · rename_i hv
                              injection hset with hset
                              subst hset
                              have hcol : first < lc ∧ lc < it ∧ nth s lc = some ':' := by
                                rcases hinv2 with h1 | h1
                                · exact absurd h1.symm hne
                                · exact h1
                              obtain ⟨qe, hq1, hq2, hq3, hp⟩ := queryPhase_ok (by omega) h
                              subst hp
                              exact ⟨rfl, Or.inl ⟨hu0,
                                Or.inl ⟨lc, by omega, by omega, rfl,
                                  Or.inr ⟨hcol.2.2, it, by omega, by omega, rfl, hv,
                                    it, rfl, Nat.le_refl _, by omega,
                                    Or.inr (Or.inl ⟨hc, qe, hq1, hq2, hq3, rfl, rfl⟩)⟩⟩⟩⟩
                            · cases hset
                      · split at h
                        · rename_i hcb
                          subst hcb
                          split at h
                          · cases h
                          · rename_i parts2 hset
                            unfold set_host_and_port at hset
                            split at hset
                            · rename_i heq
                              injection hset with hset
                              subst hset
                              have hp := fragmentPhase_ok h
                              subst hp
                              exact ⟨rfl, Or.inl ⟨hu0,
                                Or.inl ⟨it, hfi, by omega, rfl,
                                  Or.inl ⟨hp0, it, rfl, Nat.le_refl _, by omega,
                                    Or.inr (Or.inr ⟨hc, hq0, rfl⟩)⟩⟩⟩⟩
                            · rename_i hne
                              split at hset
                              · rename_i hv
                                injection hset with hset
                                subst hset
                                have hcol : first < lc ∧ lc < it ∧ nth s lc = some ':' := by
                                  rcases hinv2 with h1 | h1
                                  · exact absurd h1.symm hne
                                  · exact h1
                                have hp := fragmentPhase_ok h
                                subst hp
                                exact ⟨rfl, Or.inl ⟨hu0,
                                  Or.inl ⟨lc, by omega, by omega, rfl,
                                    Or.inr ⟨hcol.2.2, it, by omega, by omega, rfl, hv,
                                      it, rfl, Nat.le_refl _, by omega,
                                      Or.inr (Or.inr ⟨hc, hq0, rfl⟩)⟩⟩⟩⟩
                              · cases hset
                        · exact ih (by omega) (by omega) hfn hq0 hf0 hp0 hu0
                            (by
                              rcases hinv2 with h1 | h1
                              · exact Or.inr (Or.inl h1)
                              · exact Or.inr (Or.inr ⟨h1.1, by omega, h1.2.2⟩)) h

/-- Master characterization of every successful parse: the scheme slice is
(0, k) with a ':' at k, and the rest of the components follow one of the three
routes of the hierarchical part: input exhausted while still counting slashes
(no path is produced), no authority (path from k+1), or authority (the "//"
followed by an AuthOut layout from k+3). -/
theorem parse_ok_shape {s : List Char} {p : uri_parts} (h : parse_uri s = .ok p) :
    ∃ k, p.scheme = some (0, k) ∧ 1 ≤ k ∧ k < s.length ∧ nth s k = some ':' ∧
      (∃ c0, nth s 0 = some c0 ∧ isAlphaC c0 = true) ∧
      ((p = { scheme := some (0, k) } ∧
          (s.length = k + 1 ∨ (s.length = k + 2 ∧ nth s (k + 1) = some '/')))
       ∨ (p.user_info = none ∧ p.host = none ∧ p.port = none ∧
            SuffixShape s (k + 1) p.path p.query p.fragment)
       ∨ (nth s (k + 1) = some '/' ∧ nth s (k + 2) = some '/' ∧ AuthOut s (k + 3) p)) := by
  unfold parse_uri at h
  split at h
  · cases h
  · rename_i hlen
    split at h
    · cases h
    · rename_i k hvs
      obtain ⟨hk1, hk2, hk3, c0, hc0, hal⟩ := validate_scheme_spec hvs
      obtain ⟨F1, hF1⟩ : ∃ F1, F1 = 2 * s.length + 3 := ⟨_, rfl⟩
      rw [show 2 * s.length + 4 = F1 + 1 by omega] at h
      rcases hk3 with hkn | hkc
      · exfalso
        subst hkn
        simp only [hierLoop] at h
        split at h
        · rename_i hx
          omega
        · split at h
          · cases h
          · rename_i cx hcx
            have := nth_some_lt hcx
            omega
      · have hkn : k < s.length := nth_some_lt hkc
        simp only [hierLoop] at h
        split at h
        · rename_i ht1
          simp only [finalizeHier] at h
          injection h with h
          subst h
          exact ⟨k, rfl, hk1, hkn, hkc, ⟨c0, hc0, hal⟩, Or.inl ⟨rfl, Or.inl ht1.symm⟩⟩
        · rename_i hne1
          split at h
          · cases h
          · rename_i c1 hc1
            have h1n := nth_some_lt hc1
            split at h
            · rename_i hcb1
              subst hcb1
              obtain ⟨F2, hF2⟩ : ∃ F2, F2 = 2 * s.length + 2 := ⟨_, rfl⟩
              rw [show F1 = F2 + 1 by omega] at h
              simp only [hierLoop] at h
              split at h
              · rename_i ht2
                simp only [finalizeHier] at h
                injection h with h
                subst h
                exact ⟨k, rfl, hk1, hkn, hkc, ⟨c0, hc0, hal⟩,
                  Or.inl ⟨rfl, Or.inr ⟨ht2.symm, hc1⟩⟩⟩
              · rename_i hne2
                split at h
                · cases h
                · rename_i c2 hc2
                  have h2n := nth_some_lt hc2
                  split at h
                  · rename_i hcb2
                    subst hcb2
                    by_cases hk3n : k + 3 = s.length
                    · exfalso
                      obtain ⟨F3, hF3⟩ : ∃ F3, F3 = 2 * s.length + 1 := ⟨_, rfl⟩
                      rw [show F2 = F3 + 1 by omega] at h
                      simp only [hierLoop] at h
                      split at h
                      · have hbad := port_span_invalid (show (0 : Nat) < k by omega) hkn hkc
                          (by decide)
                        simp only [finalizeHier] at h
                        rw [set_host_and_port_stale _ (by omega) hbad] at h
                        cases h
                      · rename_i hx
                        exact hx hk3n
                    · have hres := hierLoop_auth_ok F2 (Nat.le_refl (k + 3))
                        (by omega) (by omega) rfl rfl rfl rfl (Or.inl rfl) h
                      exact ⟨k, by rw [hres.1], hk1, hkn, hkc, ⟨c0, hc0, hal⟩,
                        Or.inr (Or.inr ⟨hc1, hc2, hres.2⟩)⟩
                  · have hres := hierLoop_path_ok F2 (by omega) rfl rfl h
                    obtain ⟨hs1, hs2, hs3, hs4, hsfx⟩ := hres
                    exact ⟨k, by rw [hs1], hk1, hkn, hkc, ⟨c0, hc0, hal⟩,
                      Or.inr (Or.inl ⟨by rw [hs2], by rw [hs3], by rw [hs4], hsfx⟩)⟩
            · have hres := hierLoop_path_ok F1 (by omega) rfl rfl h
              obtain ⟨hs1, hs2, hs3, hs4, hsfx⟩ := hres
              exact ⟨k, by rw [hs1], hk1, hkn, hkc, ⟨c0, hc0, hal⟩,
                Or.inr (Or.inl ⟨by rw [hs2], by rw [hs3], by rw [hs4], hsfx⟩)⟩

theorem hostOut_path_some {s : List Char} {hs : Nat} {p : uri_parts} (h : HostOut s hs p) :
    ∃ ab, p.path = some ab := by
  obtain ⟨he, _, _, _, hph⟩ := h
  rcases hph with ⟨_, pe, hpa, _⟩ | ⟨_, pp, _, _, _, _, pe, hpa, _⟩
  · exact ⟨_, hpa⟩
  · exact ⟨_, hpa⟩

theorem authOut_path_some {s : List Char} {first : Nat} {p : uri_parts}
    (h : AuthOut s first p) : ∃ ab, p.path = some ab := by
  rcases h with ⟨_, hh | ⟨b, _, _, hh⟩⟩ | ⟨ua, _, _, _, _, hh⟩
  · exact hostOut_path_some hh
  · exact hostOut_path_some hh
  · exact hostOut_path_some hh

/-- C4 (amended): on every successful parse the scheme slice is present,
non-empty and starts at an ASCII letter; the path slice is present except when
the input is exhausted immediately after the scheme ':' or after a single
following '/'. -/
theorem c4_scheme_and_path {s : List Char} {p : uri_parts} (h : parse_uri s = .ok p) :
    (∃ k c0, p.scheme = some (0, k) ∧ 1 ≤ k ∧ nth s 0 = some c0 ∧ isAlphaC c0 = true) ∧
    (p.path = none →
      ∃ k, p.scheme = some (0, k) ∧
        (s.length = k + 1 ∨ (s.length = k + 2 ∧ nth s (k + 1) = some '/'))) := by
  obtain ⟨k, hsch, hk1, hkn, hkc, ⟨c0, hc0, hal⟩, hroutes⟩ := parse_ok_shape h
  refine ⟨⟨k, c0, hsch, hk1, hc0, hal⟩, ?_⟩
  intro hpath
  rcases hroutes with ⟨hp0, hlen⟩ | ⟨_, _, _, hsfx⟩ | ⟨_, _, hauth⟩
  · exact ⟨k, hsch, hlen⟩
  · exfalso
    obtain ⟨pe, hpa, _⟩ := hsfx
    rw [hpath] at hpa
    cases hpa
  · exfalso
    obtain ⟨ab, hpa⟩ := authOut_path_some hauth
    rw [hpath] at hpa
    cases hpa

/-- C4 witness: the theorem applied to the concrete accepted input a:b. -/
theorem c4_witness :
    parse_uri (cs "a:b") = .ok { scheme := some (0, 1), path := some (2, 3) } ∧
    ((∃ k c0, ({ scheme := some (0, 1), path := some (2, 3) } : uri_parts).scheme =
        some (0, k) ∧ 1 ≤ k ∧ nth (cs "a:b") 0 = some c0 ∧ isAlphaC c0 = true) ∧
     (({ scheme := some (0, 1), path := some (2, 3) } : uri_parts).path = none →
       ∃ k, ({ scheme := some (0, 1), path := some (2, 3) } : uri_parts).scheme =
          some (0, k) ∧
         ((cs "a:b").length = k + 1 ∨
           ((cs "a:b").length = k + 2 ∧ nth (cs "a:b") (k + 1) = some '/')))) :=
  ⟨by decide, c4_scheme_and_path (by decide)⟩

theorem filterMap_id_cons_none {α : Type} {l : List (Option α)} :
    (none :: l).filterMap id = l.filterMap id := by
  simp

theorem filterMap_id_cons_some {α : Type} {a : α} {l : List (Option α)} :
    ((some a) :: l).filterMap id = a :: l.filterMap id := by
  simp

theorem slicesWF_nil {n : Nat} : slicesWF n [] = true := rfl

theorem slicesWF_cons {n a b : Nat} {l : List (Nat × Nat)}
    (h1 : a ≤ b) (h2 : b ≤ n) (hl : slicesWF n l = true) :
    slicesWF n ((a, b) :: l) = true := by
  simp only [slicesWF, List.all_cons, Bool.and_eq_true, decide_eq_true_eq] at hl ⊢
  exact ⟨⟨h1, h2⟩, hl⟩

theorem chainB_singleton {x : Nat × Nat} : chainB [x] = true := rfl

theorem chainB_cons2 {a b c d : Nat} {l : List (Nat × Nat)}
    (hbc : b ≤ c) (hl : chainB ((c, d) :: l) = true) :
    chainB ((a, b) :: (c, d) :: l) = true := by
  simp only [chainB, Bool.and_eq_true, decide_eq_true_eq]
  exact ⟨hbc, hl⟩

theorem gapDelimsB_singleton {s : List Char} {x : Nat × Nat} : gapDelimsB s [x] = true := rfl

theorem gapDelimsB_cons2 {s : List Char} {a b c d : Nat} {l : List (Nat × Nat)}
    (hg : (sl s (b, c)).all isDelimC = true) (hl : gapDelimsB s ((c, d) :: l) = true) :
    gapDelimsB s ((a, b) :: (c, d) :: l) = true := by
  simp only [gapDelimsB, Bool.and_eq_true]
  exact ⟨hg, hl⟩

theorem sl_cons_glue {s : List Char} {b b1 c0 : Nat} {d : Char} (h : nth s b = some d)
    (hb1 : b1 = b + 1) (hbc : b1 ≤ c0) : d :: sl s (b1, c0) = sl s (b, c0) := by
  subst hb1
  have h2 := sl_glue (Nat.le_refl b) hbc h
  rw [sl_nil] at h2
  exact h2

theorem all_delim_nil {s : List Char} {b : Nat} : (sl s (b, b)).all isDelimC = true := by
  rw [sl_nil]
  rfl

theorem all_delim_single {s : List Char} {b b1 : Nat} {d : Char} (h : nth s b = some d)
    (hb1 : b1 = b + 1) (hd : isDelimC d = true) :
    (sl s (b, b1)).all isDelimC = true := by
  subst hb1
  rw [sl_single h]
  simp [hd]

theorem all_delim_three {s : List Char} {k : Nat} (h1 : nth s k = some ':')
    (h2 : nth s (k + 1) = some '/') (h3 : nth s (k + 2) = some '/') :
    (sl s (k, k + 3)).all isDelimC = true := by
  rw [← sl_cons_glue h1 rfl (show k + 1 ≤ k + 3 by omega),
      ← sl_cons_glue h2 (show k + 2 = k + 1 + 1 by omega) (show k + 2 ≤ k + 3 by omega),
      ← sl_cons_glue h3 (show k + 3 = k + 2 + 1 by omega) (show k + 3 ≤ k + 3 by omega),
      sl_nil]
  decide

theorem suffixShape_layout {s : List Char} {e : Nat} {p : uri_parts}
    (hsh : SuffixShape s e p.path p.query p.fragment) :
    ∃ pe l, [p.path, p.query, p.fragment].filterMap id = (e, pe) :: l ∧
      e ≤ pe ∧ pe ≤ s.length ∧
      slicesWF s.length ((e, pe) :: l) = true ∧ chainB ((e, pe) :: l) = true ∧
      gapDelimsB s ((e, pe) :: l) = true := by
  obtain ⟨pe, hpa, hep, hpn, hc⟩ := hsh
  rcases hc with ⟨hpeN, hq, hf⟩ | ⟨hqm, qe, hq1, hq2, hq3, hq, hf⟩ | ⟨hfm, hq, hf⟩
  · refine ⟨pe, [], ?_, hep, hpn, slicesWF_cons hep hpn slicesWF_nil, chainB_singleton,
      gapDelimsB_singleton⟩
    rw [hpa, filterMap_id_cons_some, hq, filterMap_id_cons_none, hf, filterMap_id_cons_none]
    rfl
  · refine ⟨pe, [(pe + 1, qe), (qe + 1, s.length)], ?_, hep, hpn, ?_, ?_, ?_⟩
    · rw [hpa, filterMap_id_cons_some, hq, filterMap_id_cons_some, hf, filterMap_id_cons_some]
      rfl
    · exact slicesWF_cons hep hpn (slicesWF_cons (by omega) (by omega)
        (slicesWF_cons (by omega) (by omega) slicesWF_nil))
    · exact chainB_cons2 (by omega) (chainB_cons2 (by omega) chainB_singleton)
    · exact gapDelimsB_cons2 (all_delim_single hqm rfl (by decide))
        (gapDelimsB_cons2 (all_delim_single hq3 rfl (by decide)) gapDelimsB_singleton)
  · have hplt : pe < s.length := nth_some_lt hfm
    refine ⟨pe, [(pe + 1, s.length)], ?_, hep, hpn, ?_, ?_, ?_⟩
    · rw [hpa, filterMap_id_cons_some, hq, filterMap_id_cons_none, hf, filterMap_id_cons_some]
      rfl
    · exact slicesWF_cons hep hpn (slicesWF_cons (by omega) (by omega) slicesWF_nil)
    · exact chainB_cons2 (by omega) chainB_singleton
    · exact gapDelimsB_cons2 (all_delim_single hfm rfl (by decide)) gapDelimsB_singleton

theorem postHost_layout {s : List Char} {he : Nat} {p : uri_parts} (hph : PostHost s he p) :
    ∃ y l, [p.port, p.path, p.query, p.fragment].filterMap id = y :: l ∧
      he ≤ y.1 ∧ (sl s (he, y.1)).all isDelimC = true ∧
      slicesWF s.length (y :: l) = true ∧ chainB (y :: l) = true ∧
      gapDelimsB s (y :: l) = true := by
  rcases hph with ⟨hpo, hsh⟩ | ⟨hcol, pp, hp1, hp2, hpo, hvp, hsh⟩
  · obtain ⟨pe, l, heq, hep, hpn, hwf, hch, hg⟩ := suffixShape_layout hsh
    refine ⟨(he, pe), l, ?_, Nat.le_refl he, all_delim_nil, hwf, hch, hg⟩
    rw [hpo, filterMap_id_cons_none, heq]
  · obtain ⟨pe, l, heq, hep, hpn, hwf, hch, hg⟩ := suffixShape_layout hsh
    refine ⟨(he + 1, pp), (pp, pe) :: l, ?_, by omega,
      all_delim_single hcol rfl (by decide), ?_, ?_, ?_⟩
    · rw [hpo, filterMap_id_cons_some, heq]
    · exact slicesWF_cons (by omega) (by omega) hwf
    · exact chainB_cons2 (by omega) hch
    · exact gapDelimsB_cons2 all_delim_nil hg

theorem hostOut_layout {s : List Char} {hs0 : Nat} {p : uri_parts} (hh : HostOut s hs0 p) :
    ∃ he l, [p.host, p.port, p.path, p.query, p.fragment].filterMap id = (hs0, he) :: l ∧
      hs0 ≤ he ∧ he ≤ s.length ∧
      slicesWF s.length ((hs0, he) :: l) = true ∧ chainB ((hs0, he) :: l) = true ∧
      gapDelimsB s ((hs0, he) :: l) = true := by
  obtain ⟨he, h1, h2, hho, hph⟩ := hh
  obtain ⟨y, l, heq, hy1, hyg, hwf, hch, hg⟩ := postHost_layout hph
  refine ⟨he, y :: l, ?_, h1, h2, ?_, ?_, ?_⟩
  · rw [hho, filterMap_id_cons_some, heq]
  · exact slicesWF_cons h1 h2 hwf
  · rcases y with ⟨y1, y2⟩
    exact chainB_cons2 hy1 hch
  · rcases y with ⟨y1, y2⟩
    exact gapDelimsB_cons2 hyg hg

theorem sliceLayoutB_intro {s : List Char} {p : uri_parts}
    (hA : slicesWF s.length (presentSlices p) = true)
    (hB : chainB (presentSlices p) = true)
    (hC : gapDelimsB s (presentSlices p) = true) :
    (slicesWF s.length (presentSlices p) && chainB (presentSlices p)) = true ∧
    (noJumpB s p = true → sliceLayoutB s p = true) := by
  refine ⟨?_, fun _ => ?_⟩
  · rw [hA, hB]
    rfl
  · unfold sliceLayoutB
    rw [hA, hB, hC]
    rfl

/-- C8 (amended): on every successful parse the present component slices are
well-formed sub-spans of the input and pairwise disjoint in component order;
and provided the host slice does not start at a bracket that the authority
scan jumped to, the gaps between consecutive present slices consist only of
delimiter characters, so the whole slice layout holds. -/
theorem c8_slice_layout {s : List Char} {p : uri_parts} (h : parse_uri s = .ok p) :
    (slicesWF s.length (presentSlices p) && chainB (presentSlices p)) = true ∧
    (noJumpB s p = true → sliceLayoutB s p = true) := by
  obtain ⟨k, hsch, hk1, hkn, hkc, _, hroutes⟩ := parse_ok_shape h
  rcases hroutes with ⟨hp0, hlen⟩ | ⟨hui, hho, hpo, hsfx⟩ | ⟨hsl1, hsl2, hauth⟩
  · subst hp0
    have hps : presentSlices { scheme := some (0, k) } = [(0, k)] := rfl
    refine sliceLayoutB_intro ?_ ?_ ?_
    · rw [hps]
      exact slicesWF_cons (by omega) (by omega) slicesWF_nil
    · rw [hps]
      exact chainB_singleton
    · rw [hps]
      exact gapDelimsB_singleton
  · obtain ⟨pe, l, heq, hep, hpn, hwf, hch, hg⟩ := suffixShape_layout hsfx
    have hps : presentSlices p = (0, k) :: (k + 1, pe) :: l := by
      unfold presentSlices
      rw [hsch, filterMap_id_cons_some, hui, filterMap_id_cons_none, hho,
        filterMap_id_cons_none, hpo, filterMap_id_cons_none, heq]
    refine sliceLayoutB_intro ?_ ?_ ?_
    · rw [hps]
      exact slicesWF_cons (by omega) (by omega) hwf
    · rw [hps]
      exact chainB_cons2 (by omega) hch
    · rw [hps]
      exact gapDelimsB_cons2 (all_delim_single hkc rfl (by decide)) hg
  · rcases hauth with ⟨hui, hhOr⟩ | ⟨ua, hua1, hua2, hat, hui, hh⟩
    · rcases hhOr with hh | ⟨b, hb, hbr, hh⟩
      · obtain ⟨he, l, heq, h1, h2, hwf, hch, hg⟩ := hostOut_layout hh
        have hps : presentSlices p = (0, k) :: (k + 3, he) :: l := by
          unfold presentSlices
          rw [hsch, filterMap_id_cons_some, hui, filterMap_id_cons_none, heq]
        refine sliceLayoutB_intro ?_ ?_ ?_
        · rw [hps]
          exact slicesWF_cons (by omega) (by omega) hwf
        · rw [hps]
          exact chainB_cons2 (by omega) hch
        · rw [hps]
          exact gapDelimsB_cons2 (all_delim_three hkc hsl1 hsl2) hg
      · obtain ⟨he, l, heq, h1, h2, hwf, hch, hg⟩ := hostOut_layout hh
        have hps : presentSlices p = (0, k) :: (b, he) :: l := by
          unfold presentSlices
          rw [hsch, filterMap_id_cons_some, hui, filterMap_id_cons_none, heq]
        constructor
        · rw [hps, Bool.and_eq_true]
          exact ⟨slicesWF_cons (by omega) (by omega) hwf, chainB_cons2 (by omega) hch⟩
        · intro hnj
          exfalso
          obtain ⟨he2, _, _, hho, _⟩ := hh
          simp [noJumpB, hho, hui, hsch, hbr] at hnj
          omega
    · obtain ⟨he, l, heq, h1, h2, hwf, hch, hg⟩ := hostOut_layout hh
      have hps : presentSlices p = (0, k) :: (k + 3, ua) :: (ua + 1, he) :: l := by
        unfold presentSlices
        rw [hsch, filterMap_id_cons_some, hui, filterMap_id_cons_some, heq]
      refine sliceLayoutB_intro ?_ ?_ ?_
      · rw [hps]
        exact slicesWF_cons (by omega) (by omega)
          (slicesWF_cons (by omega) (by omega) hwf)
      · rw [hps]
        exact chainB_cons2 (by omega) (chainB_cons2 (by omega) hch)
      · rw [hps]
        exact gapDelimsB_cons2 (all_delim_three hkc hsl1 hsl2)
          (gapDelimsB_cons2 (all_delim_single hat rfl (by decide)) hg)

/-- C8 witness: the theorem applied to the concrete accepted input
a://u@h:80/p?q#f, whose parse produces all seven component slices. -/
theorem c8_witness :
    parse_uri (cs "a://u@h:80/p?q#f") = .ok { scheme := some (0, 1), user_info := some (4, 5), host := some (6, 7), port := some (8, 10), path := some (10, 12), query := some (13, 14), fragment := some (15, 16) } ∧
    ((slicesWF (cs "a://u@h:80/p?q#f").length (presentSlices { scheme := some (0, 1), user_info := some (4, 5), host := some (6, 7), port := some (8, 10), path := some (10, 12), query := some (13, 14), fragment := some (15, 16) }) && chainB (presentSlices { scheme := some (0, 1), user_info := some (4, 5), host := some (6, 7), port := some (8, 10), path := some (10, 12), query := some (13, 14), fragment := some (15, 16) })) = true ∧
     (noJumpB (cs "a://u@h:80/p?q#f") { scheme := some (0, 1), user_info := some (4, 5), host := some (6, 7), port := some (8, 10), path := some (10, 12), query := some (13, 14), fragment := some (15, 16) } = true → sliceLayoutB (cs "a://u@h:80/p?q#f") { scheme := some (0, 1), user_info := some (4, 5), host := some (6, 7), port := some (8, 10), path := some (10, 12), query := some (13, 14), fragment := some (15, 16) } = true)) :=
  ⟨by decide, c8_slice_layout (by decide)⟩

theorem tailRecon_eq {s : List Char} {e : Nat} {p : uri_parts}
    (hsh : SuffixShape s e p.path p.query p.fragment) :
    tailRecon s p = sl s (e, s.length) := by
  obtain ⟨pe, hpa, hep, hpn, hc⟩ := hsh
  rcases hc with ⟨hpeN, hq, hf⟩ | ⟨hqm, qe, hq1, hq2, hq3, hq, hf⟩ | ⟨hfm, hq, hf⟩
  · simp only [tailRecon, hpa, hq, hf, slOpt, List.append_nil, List.nil_append]
    rw [hpeN]
  · have hplt : pe < s.length := nth_some_lt hqm
    simp only [tailRecon, hpa, hq, hf, slOpt, List.cons_append]
    rw [sl_glue hq1 (show qe + 1 ≤ s.length by omega) hq3,
      sl_glue hep (show pe + 1 ≤ s.length by omega) hqm]
  · have hplt : pe < s.length := nth_some_lt hfm
    simp only [tailRecon, hpa, hq, hf, slOpt, List.nil_append]
    rw [sl_glue hep (show pe + 1 ≤ s.length by omega) hfm]

theorem hostRecon_none {s : List Char} {p : uri_parts} (h : p.host = none) :
    hostRecon s p = [] := by
  simp only [hostRecon, h]

theorem hostRecon_nn {s : List Char} {h1 h2 : Nat} {p : uri_parts}
    (hho : p.host = some (h1, h2)) (hui : p.user_info = none) (hpo : p.port = none) :
    hostRecon s p = '/' :: '/' :: sl s (h1, h2) := by
  simp only [hostRecon, hho, hui, hpo, List.nil_append, List.append_nil]

theorem hostRecon_np {s : List Char} {h1 h2 q1 q2 : Nat} {p : uri_parts}
    (hho : p.host = some (h1, h2)) (hui : p.user_info = none)
    (hpo : p.port = some (q1, q2)) :
    hostRecon s p = '/' :: '/' :: (sl s (h1, h2) ++ ':' :: sl s (q1, q2)) := by
  simp only [hostRecon, hho, hui, hpo, List.nil_append]

theorem hostRecon_un {s : List Char} {h1 h2 u1 u2 : Nat} {p : uri_parts}
    (hho : p.host = some (h1, h2)) (hui : p.user_info = some (u1, u2))
    (hpo : p.port = none) :
    hostRecon s p = '/' :: '/' :: (sl s (u1, u2) ++ '@' :: sl s (h1, h2)) := by
  simp only [hostRecon, hho, hui, hpo, List.append_nil, List.append_assoc,
    List.cons_append, List.nil_append, List.singleton_append]

theorem hostRecon_up {s : List Char} {h1 h2 u1 u2 q1 q2 : Nat} {p : uri_parts}
    (hho : p.host = some (h1, h2)) (hui : p.user_info = some (u1, u2))
    (hpo : p.port = some (q1, q2)) :
    hostRecon s p =
      '/' :: '/' :: (sl s (u1, u2) ++ '@' :: (sl s (h1, h2) ++ ':' :: sl s (q1, q2))) := by
  simp only [hostRecon, hho, hui, hpo, List.append_assoc, List.cons_append,
    List.nil_append, List.singleton_append]

/-- C9 (amended): for every accepted input, concatenating the produced
component slices with their original delimiters reproduces the input exactly,
provided a path slice was produced and the host slice does not start at a
bracket the authority scan jumped to. -/
theorem c9_round_trip {s : List Char} {p : uri_parts} (h : parse_uri s = .ok p)
    (hnj : noJumpB s p = true) (hpa : p.path.isSome = true) :
    reconstruct s p = s := by
  obtain ⟨k, hsch, hk1, hkn, hkc, _, hroutes⟩ := parse_ok_shape h
  have hS : schemeRecon s p = sl s (0, k) ++ [':'] := by
    simp only [schemeRecon, hsch]
  rcases hroutes with ⟨hp0, hlen⟩ | ⟨hui, hho, hpo, hsfx⟩ | ⟨hsl1, hsl2, hauth⟩
  · subst hp0
    simp at hpa
  · have hT : tailRecon s p = sl s (k + 1, s.length) := tailRecon_eq hsfx
    have hH : hostRecon s p = [] := hostRecon_none hho
    unfold reconstruct
    rw [hS, hH, hT]
    simp only [List.append_assoc, List.cons_append, List.singleton_append,
      List.append_nil, List.nil_append]
    rw [sl_glue (Nat.zero_le k) (show k + 1 ≤ s.length by omega) hkc, sl_whole]
  · rcases hauth with ⟨hui, hhOr⟩ | ⟨ua, hua1, hua2, hat, hui, hh⟩
    · rcases hhOr with hh | ⟨b, hb, hbr, hh⟩
      · obtain ⟨he, hh1, hh2, hho, hph⟩ := hh
        rcases hph with ⟨hpo, hsfx⟩ | ⟨hcol, pp, hp1, hp2, hpo, hvp, hsfx⟩
        · have hT : tailRecon s p = sl s (he, s.length) := tailRecon_eq hsfx
          have hH : hostRecon s p = '/' :: '/' :: sl s (k + 3, he) :=
            hostRecon_nn hho hui hpo
          unfold reconstruct
          rw [hS, hH, hT]
          simp only [List.append_assoc, List.cons_append, List.singleton_append,
            List.append_nil, List.nil_append]
          rw [sl_append hh1 hh2,
            sl_cons_glue hsl2 (show k + 3 = k + 2 + 1 by omega) (show k + 3 ≤ s.length by omega),
            sl_cons_glue hsl1 (show k + 2 = k + 1 + 1 by omega) (show k + 2 ≤ s.length by omega),
            sl_cons_glue hkc rfl (show k + 1 ≤ s.length by omega),
            sl_append (Nat.zero_le k) (show k ≤ s.length by omega), sl_whole]
        · have hT : tailRecon s p = sl s (pp, s.length) := tailRecon_eq hsfx
          have hH : hostRecon s p =
              '/' :: '/' :: (sl s (k + 3, he) ++ ':' :: sl s (he + 1, pp)) :=
            hostRecon_np hho hui hpo
          unfold reconstruct
          rw [hS, hH, hT]
          simp only [List.append_assoc, List.cons_append, List.singleton_append,
            List.append_nil, List.nil_append]
          rw [sl_append hp1 hp2,
            sl_cons_glue hcol rfl (show he + 1 ≤ s.length by omega),
            sl_append hh1 (show he ≤ s.length by omega),
            sl_cons_glue hsl2 (show k + 3 = k + 2 + 1 by omega) (show k + 3 ≤ s.length by omega),
            sl_cons_glue hsl1 (show k + 2 = k + 1 + 1 by omega) (show k + 2 ≤ s.length by omega),
            sl_cons_glue hkc rfl (show k + 1 ≤ s.length by omega),
            sl_append (Nat.zero_le k) (show k ≤ s.length by omega), sl_whole]
      · exfalso
        obtain ⟨he2, hx1, hx2, hho, hx3⟩ := hh
        simp [noJumpB, hho, hui, hsch, hbr] at hnj
        omega
    · obtain ⟨he, hh1, hh2, hho, hph⟩ := hh
      rcases hph with ⟨hpo, hsfx⟩ | ⟨hcol, pp, hp1, hp2, hpo, hvp, hsfx⟩
      · have hT : tailRecon s p = sl s (he, s.length) := tailRecon_eq hsfx
        have hH : hostRecon s p =
            '/' :: '/' :: (sl s (k + 3, ua) ++ '@' :: sl s (ua + 1, he)) :=
          hostRecon_un hho hui hpo
        unfold reconstruct
        rw [hS, hH, hT]
        simp only [List.append_assoc, List.cons_append, List.singleton_append,
          List.append_nil, List.nil_append]
        rw [sl_append hh1 hh2,
          sl_cons_glue hat rfl (show ua + 1 ≤ s.length by omega),
          sl_append hua1 (show ua ≤ s.length by omega),
          sl_cons_glue hsl2 (show k + 3 = k + 2 + 1 by omega) (show k + 3 ≤ s.length by omega),
          sl_cons_glue hsl1 (show k + 2 = k + 1 + 1 by omega) (show k + 2 ≤ s.length by omega),
          sl_cons_glue hkc rfl (show k + 1 ≤ s.length by omega),
          sl_append (Nat.zero_le k) (show k ≤ s.length by omega), sl_whole]
      · have hT : tailRecon s p = sl s (pp, s.length) := tailRecon_eq hsfx
        have hH : hostRecon s p =
            '/' :: '/' :: (sl s (k + 3, ua) ++
              '@' :: (sl s (ua + 1, he) ++ ':' :: sl s (he + 1, pp))) :=
          hostRecon_up hho hui hpo
        unfold reconstruct
        rw [hS, hH, hT]
        simp only [List.append_assoc, List.cons_append, List.singleton_append,
          List.append_nil, List.nil_append]
        rw [sl_append hp1 hp2,
          sl_cons_glue hcol rfl (show he + 1 ≤ s.length by omega),
          sl_append hh1 (show he ≤ s.length by omega),
          sl_cons_glue hat rfl (show ua + 1 ≤ s.length by omega),
          sl_append hua1 (show ua ≤ s.length by omega),
          sl_cons_glue hsl2 (show k + 3 = k + 2 + 1 by omega) (show k + 3 ≤ s.length by omega),
          sl_cons_glue hsl1 (show k + 2 = k + 1 + 1 by omega) (show k + 2 ≤ s.length by omega),
          sl_cons_glue hkc rfl (show k + 1 ≤ s.length by omega),
          sl_append (Nat.zero_le k) (show k ≤ s.length by omega), sl_whole]

/-- C9 witness: the theorem applied to the concrete accepted input
a://u@h/p?q#f, discharging the no-jump and path-present hypotheses there. -/
theorem c9_witness :
    (parse_uri (cs "a://u@h/p?q#f") = .ok { scheme := some (0, 1), user_info := some (4, 5), host := some (6, 7), path := some (7, 9), query := some (10, 11), fragment := some (12, 13) } ∧
     noJumpB (cs "a://u@h/p?q#f") { scheme := some (0, 1), user_info := some (4, 5), host := some (6, 7), path := some (7, 9), query := some (10, 11), fragment := some (12, 13) } = true ∧
     ({ scheme := some (0, 1), user_info := some (4, 5), host := some (6, 7), path := some (7, 9), query := some (10, 11), fragment := some (12, 13) } : uri_parts).path.isSome = true) ∧
    reconstruct (cs "a://u@h/p?q#f") { scheme := some (0, 1), user_info := some (4, 5), host := some (6, 7), path := some (7, 9), query := some (10, 11), fragment := some (12, 13) } = cs "a://u@h/p?q#f" :=
  ⟨⟨by decide, by decide, by decide⟩, c9_round_trip (by decide) (by decide) (by decide)⟩

/-- C10: the authority scan classifies no host characters: whatever single
character c other than the dispatch characters at-sign, open bracket, colon,
slash, question mark and hash is placed in the host position of s://a_c_/,
the parse succeeds and c lands inside the host slice, which spans exactly the
two characters between the double slash and the path slash. -/
theorem c10_host_unvalidated (c : Char) (h1 : c ≠ '@') (h2 : c ≠ '[') (h3 : c ≠ ':')
    (h4 : c ≠ '/') (h5 : c ≠ '?') (h6 : c ≠ '#') :
    parse_uri (cs "s://a" ++ [c] ++ cs "/") =
      .ok { scheme := some (0, 1), host := some (4, 6), path := some (6, 7) } ∧
    nth (cs "s://a" ++ [c] ++ cs "/") 5 = some c := by
  show parse_uri ('s' :: ':' :: '/' :: '/' :: 'a' :: c :: '/' :: []) = _ ∧
    nth ('s' :: ':' :: '/' :: '/' :: 'a' :: c :: '/' :: []) 5 = some c
  refine ⟨?_, rfl⟩
  simp [parse_uri, hierLoop, nth, validate_scheme, schemeLoop, finalizeHier, queryPhase,
    fragmentPhase, pchar_adv, pct_in, set_host_and_port, is_valid_user_info, is_valid_port,
    sl, isUnreservedC, isAlnumC, isAlphaC, isDigitC, isSubDelimC, isPcharSingle, isHexC,
    h1, h2, h3, h4, h5, h6]

/-- C10 witness: the theorem applied at the concrete non-host character
space, which is not in any RFC 3986 host production yet is accepted. -/
theorem c10_witness :
    parse_uri (cs "s://a" ++ [' '] ++ cs "/") =
      .ok { scheme := some (0, 1), host := some (4, 6), path := some (6, 7) } ∧
    nth (cs "s://a" ++ [' '] ++ cs "/") 5 = some ' ' :=
  c10_host_unvalidated ' ' (by decide) (by decide) (by decide) (by decide) (by decide)
    (by decide)

/-- C3 witness: termination applied at a concrete input, alongside the
concrete successful parse of that input. -/
theorem c3_witness :
    parse_uri (cs "a:b") = .ok { scheme := some (0, 1), path := some (2, 3) } ∧
    parse_uri (cs "a:b") ≠ PResult.outOfFuel :=
  ⟨by decide, c3_parse_uri_terminates (cs "a:b")⟩
